import Mathlib

/-!
# simple-webdav: range-aware transfer layer

A shallow embedding of `src/core/webdav/webdav.go` (package `webdav`):
the `Range` header parser `parseHTTPRange`, the multipart envelope sizer
`parseTotalRange`, the request paths `serveGet` and `servePut`, and the
handler cache `loadHandler`.

Conventions of the embedding.

* A Go `string` is a list of characters (`GoString`); its length in bytes is
  `byteLen`, the sum of the UTF-8 sizes of its characters.
* `int64` values are integers; every `int64` addition and subtraction of the
  source goes through `wrap64`, which reduces the result to the two's
  complement range.
* A Go result pair `(value, error)` is a Lean pair whose second component is
  `none` for a `nil` error.
* The standard library functions the source calls (`strings.Split`,
  `strings.TrimSpace`, `strings.Index`, `strings.EqualFold`,
  `strconv.ParseInt`, `strconv.FormatInt`, `mime/multipart.Writer`,
  `io.CopyN`, `http.Error`) are embedded from their Go definitions.
-/

namespace SimpleWebdav

/-! ## Strings and machine integers -/

/-- A Go string, as the list of its characters. -/
abbrev GoString := List Char

/-- The number of bytes of a Go string: `len(s)`. -/
def byteLen (s : GoString) : Nat := (s.map Char.utf8Size).sum

/-- Two's complement reduction of an integer to the `int64` range. -/
def wrap64 (x : Int) : Int :=
  (x + 9223372036854775808) % 18446744073709551616 - 9223372036854775808

/-- Prepending a character to the first piece of a split. -/
def consHead (x : Char) : List GoString → List GoString
  | [] => [[x]]
  | h :: t => (x :: h) :: t

/-- The Go call `strings.Split(s, sep)` for a one-character separator: the
pieces of `s` between the occurrences of `sep`, always at least one piece. -/
def split (sep : Char) : GoString → List GoString
  | [] => [[]]
  | x :: xs => if x = sep then [] :: split sep xs else consHead x (split sep xs)

/-- The Go predicate `unicode.IsSpace`: the characters with the Unicode
White Space property. -/
def isSpace (c : Char) : Bool :=
  let n := c.toNat
  n = 9 || n = 10 || n = 11 || n = 12 || n = 13 || n = 32 || n = 133 || n = 160
    || n = 5760 || (8192 ≤ n && n ≤ 8202) || n = 8232 || n = 8233 || n = 8239
    || n = 8287 || n = 12288

/-- The Go call `strings.TrimSpace(s)`: `s` without its leading and trailing
white space. -/
def trimSpace (s : GoString) : GoString :=
  ((s.dropWhile isSpace).reverse.dropWhile isSpace).reverse

/-- The Go call `strings.Index(s, sep)` for a one-character separator: the
position of the first occurrence of `sep`, or `-1` when there is none. -/
def index (sep : Char) : GoString → Int
  | [] => -1
  | x :: xs => if x = sep then 0 else
      let i := index sep xs
      if i < 0 then -1 else i + 1

/-- Case folding of one character against an ASCII character, as
`unicode.SimpleFold` relates them: the two ASCII cases of a letter, the
long s with `s` and the Kelvin sign with `k`. -/
def foldEq (c t : Char) : Bool :=
  let lower (n : Nat) : Nat :=
    if 65 ≤ n && n ≤ 90 then n + 32 else if n = 383 then 115
    else if n = 8490 then 107 else n
  lower c.toNat = lower t.toNat

/-- The Go call `strings.EqualFold(s, t)` for an ASCII string `t`: equality
of the two strings under simple case folding, character by character. -/
def equalFold : GoString → GoString → Bool
  | [], [] => true
  | c :: cs, t :: ts => foldEq c t && equalFold cs ts
  | _, _ => false

/-! ## `strconv` -/

/-- The two failures of `strconv`: `ErrSyntax` and `ErrRange`. -/
inductive NumError where
  | syntaxErr
  | rangeErr
  deriving DecidableEq, Repr

/-- The digit loop of `strconv.ParseUint(s, 10, 64)` on an accumulator `n`
of type `uint64`: a character outside `0`..`9` is a syntax error, an
accumulator that would leave the `uint64` range a range error. -/
def parseUintLoop : Nat → GoString → Except NumError Nat
  | n, [] => .ok n
  | n, c :: cs =>
    if 48 ≤ c.toNat ∧ c.toNat ≤ 57 then
      let d := c.toNat - 48
      if n ≥ 18446744073709551615 / 10 + 1 then .error .rangeErr
      else
        let n10 := n * 10
        let n1 := (n10 + d) % 18446744073709551616
        if n1 < n10 ∨ n1 > 18446744073709551615 then .error .rangeErr
        else parseUintLoop n1 cs
    else .error .syntaxErr

/-- The Go call `strconv.ParseUint(s, 10, 64)`. -/
def parseUint (s : GoString) : Except NumError Nat :=
  if s = [] then .error .syntaxErr else parseUintLoop 0 s

/-- The Go call `strconv.ParseInt(s, 10, 64)`: an optional sign followed by
decimal digits, with a range error outside the `int64` range. -/
def parseInt (s : GoString) : Except NumError Int :=
  match s with
  | [] => .error .syntaxErr
  | c :: cs =>
    let neg := c = '-'
    let rest := if c = '+' ∨ c = '-' then cs else s
    match parseUint rest with
    | .error e => .error e
    | .ok un =>
      if ¬ neg ∧ un ≥ 9223372036854775808 then .error .rangeErr
      else if neg ∧ un > 9223372036854775808 then .error .rangeErr
      else .ok (if neg then -(un : Int) else (un : Int))

/-- The decimal digit character of a number below ten. -/
def digitChar (d : Nat) : Char := Char.ofNat (48 + d)

/-- The digits of `n`, most significant first, in front of `acc`; `fuel`
bounds the number of digits. -/
def digitsFuel : Nat → Nat → GoString → GoString
  | 0, _, acc => acc
  | fuel + 1, n, acc =>
    let acc1 := digitChar (n % 10) :: acc
    if n / 10 = 0 then acc1 else digitsFuel fuel (n / 10) acc1

/-- The Go call `strconv.FormatUint(n, 10)`. -/
def formatUint (n : Nat) : GoString := digitsFuel (n + 1) n []

/-- The Go call `strconv.FormatInt(i, 10)`, also the verb `%d` of `fmt`. -/
def formatInt (i : Int) : GoString :=
  if i < 0 then '-' :: formatUint i.natAbs else formatUint i.natAbs

/-! ## The range parser -/

/-- The struct `httpRange`: a byte range to be sent to the client. -/
structure httpRange where
  start : Int
  length : Int
  deriving DecidableEq, Repr

/-- The body of the `for` loop of `parseHTTPRange` on one trimmed, non-empty
unit `rangeInfo`: the range to append, or the error the parser returns. -/
def parseRangeInfo (rangeInfo : GoString) (size : Int) : Except String httpRange :=
  let i := index '-' rangeInfo
  if i < 0 then .error "invalid range"
  else
    let startStr := trimSpace (rangeInfo.take i.toNat)
    let endStr := trimSpace (rangeInfo.drop (i.toNat + 1))
    if startStr = [] then
      match parseInt endStr with
      | .error _ => .error "invalid end range"
      | .ok lastSize0 =>
        let lastSize := if lastSize0 > size then size else lastSize0
        .ok { start := wrap64 (size - lastSize), length := lastSize }
    else
      match parseInt startStr with
      | .error _ => .error "invalid start range"
      | .ok startPos =>
        if startPos < 0 then .error "invalid start range"
        else if startPos ≥ size then .error "invalid start range"
        else if endStr = [] then
          .ok { start := startPos, length := wrap64 (size - startPos) }
        else
          match parseInt endStr with
          | .error _ => .error "invalid range"
          | .ok endPos0 =>
            if startPos > endPos0 then .error "invalid range"
            else
              let endPos := if endPos0 ≥ size then wrap64 (size - 1) else endPos0
              .ok { start := startPos, length := wrap64 (wrap64 (endPos - startPos) + 1) }

/-- The `for` loop of `parseHTTPRange` over the comma separated units, with
the slice `rangeArray` built so far: empty units are skipped, the first
failing unit returns `nil` and its error. -/
def parseRangeLoop (size : Int) : List GoString → List httpRange → List httpRange × Option String
  | [], rangeArray => (rangeArray, none)
  | rangeInfo :: rest, rangeArray =>
    let rangeInfo := trimSpace rangeInfo
    if rangeInfo = [] then parseRangeLoop size rest rangeArray
    else
      match parseRangeInfo rangeInfo size with
      | .error e => ([], some e)
      | .ok rangePos => parseRangeLoop size rest (rangeArray ++ [rangePos])

/-- The method `Server.parseHTTPRange` on the value of the `Range` header and
the size of the resource. -/
def parseHTTPRange (header : GoString) (size : Int) : List httpRange × Option String :=
  let rangeMap := split '=' header
  if rangeMap.length ≠ 2 ∨ equalFold (rangeMap.getD 0 []) "bytes=".toList then ([], none)
  else parseRangeLoop size (split ',' (rangeMap.getD 1 [])) []

/-- The Go call `strings.Join(units, ",")`: the units of a `Range` header
value, separated by commas. -/
def joinUnits : List GoString → GoString
  | [] => []
  | [u] => u
  | u :: v :: rest => u ++ ',' :: joinUnits (v :: rest)

/-- The scheme of a byte range header, up to and including the `=`. -/
def schemeBytes : GoString := "bytes=".toList

/-- A decimal digit: `0` to `9`. -/
def isDigit (c : Char) : Prop := 48 ≤ c.toNat ∧ c.toNat ≤ 57

/-- The value of a digit string read from the left onto `v`. -/
def digitsValue (v : Nat) (ds : GoString) : Nat :=
  ds.foldl (fun v c => v * 10 + (c.toNat - 48)) v

/-- The part of the loop body of `parseHTTPRange` that follows the split of a
unit at its first `-`, on the trimmed bounds `startStr` and `endStr`. -/
def parseBounds (startStr endStr : GoString) (size : Int) : Except String httpRange :=
  if startStr = [] then
    match parseInt endStr with
    | .error _ => .error "invalid end range"
    | .ok lastSize0 =>
      let lastSize := if lastSize0 > size then size else lastSize0
      .ok { start := wrap64 (size - lastSize), length := lastSize }
  else
    match parseInt startStr with
    | .error _ => .error "invalid start range"
    | .ok startPos =>
      if startPos < 0 then .error "invalid start range"
      else if startPos ≥ size then .error "invalid start range"
      else if endStr = [] then
        .ok { start := startPos, length := wrap64 (size - startPos) }
      else
        match parseInt endStr with
        | .error _ => .error "invalid range"
        | .ok endPos0 =>
          if startPos > endPos0 then .error "invalid range"
          else
            let endPos := if endPos0 ≥ size then wrap64 (size - 1) else endPos0
            .ok { start := startPos, length := wrap64 (wrap64 (endPos - startPos) + 1) }

/-! ## The multipart envelope -/

/-- The method `httpRange.contentRange`: the value of a `Content-Range`
header, `bytes <start>-<start+length-1>/<size>`. -/
def httpRange.contentRange (r : httpRange) (size : Int) : GoString :=
  "bytes ".toList ++ formatInt r.start ++ '-' ::
    formatInt (wrap64 (wrap64 (r.start + r.length) - 1)) ++ '/' :: formatInt size

/-- A `textproto.MIMEHeader`: the keys of the header with their values. -/
abbrev MIMEHeader := List (GoString × List GoString)

/-- The method `httpRange.mimeHeader`: the header of one part of a multipart
response, with `application/octet-stream` for an unknown content type. -/
def httpRange.mimeHeader (r : httpRange) (contentType : GoString) (size : Int) : MIMEHeader :=
  let contentType := if contentType = [] then "application/octet-stream".toList else contentType
  [("Content-Range".toList, [r.contentRange size]), ("Content-Type".toList, [contentType])]

/-- The order of Go strings, byte by byte; on characters it is the order of
the code points. -/
def keyLE : GoString → GoString → Bool
  | [], _ => true
  | _ :: _, [] => false
  | a :: as, b :: bs => a.toNat < b.toNat || (a.toNat = b.toNat && keyLE as bs)

/-- Insertion of one entry into a header sorted by key. -/
def insertKey (e : GoString × List GoString) : MIMEHeader → MIMEHeader
  | [] => [e]
  | x :: xs => if keyLE e.1 x.1 then e :: x :: xs else x :: insertKey e xs

/-- The entries of a header in the order of their keys, as `CreatePart` writes
them. -/
def sortKeys (h : MIMEHeader) : MIMEHeader := h.foldr insertKey []

/-- A `multipart.Writer`: its boundary and whether a part has been created
(`lastpart != nil`). What it writes goes to the sink of the caller. -/
structure Writer where
  boundary : GoString
  lastpart : Bool

/-- The call `multipart.NewWriter(w)`, with the boundary the writer draws. -/
def NewWriter (boundary : GoString) : Writer := { boundary := boundary, lastpart := false }

/-- The method `Writer.CreatePart`: the bytes it writes to the sink, which are
the boundary line (after a line break from the second part on), one line per
header value in the order of the keys, and an empty line; and the writer
after it. -/
def Writer.CreatePart (w : Writer) (header : MIMEHeader) : GoString × Writer :=
  let first := if w.lastpart then "\r\n--".toList ++ w.boundary ++ "\r\n".toList
    else "--".toList ++ w.boundary ++ "\r\n".toList
  let lines := (sortKeys header).flatMap fun kv =>
    kv.2.flatMap fun v => kv.1 ++ ": ".toList ++ v ++ "\r\n".toList
  (first ++ lines ++ "\r\n".toList, { w with lastpart := true })

/-- The method `Writer.Close`: the closing boundary line it writes. -/
def Writer.Close (w : Writer) : GoString :=
  "\r\n--".toList ++ w.boundary ++ "--\r\n".toList

/-- The loop of `parseTotalRange`: every range creates a part on the writer
`mw`, whose bytes the counting writer `w` counts, and adds its length to
`encSize`. The result is the writer, the counter and the sum. -/
def parseTotalRangeLoop (contentType : GoString) (contentSize : Int) :
    List httpRange → Writer → Int → Int → Writer × Int × Int
  | [], mw, w, encSize => (mw, w, encSize)
  | ra :: rest, mw, w, encSize =>
    let part := mw.CreatePart (ra.mimeHeader contentType contentSize)
    parseTotalRangeLoop contentType contentSize rest part.2
      (wrap64 (w + byteLen part.1)) (wrap64 (encSize + ra.length))

/-- The method `Server.parseTotalRange`: the length of the multipart body of
the ranges, computed on a counting writer. `boundary` is the boundary of the
multipart writer it creates. -/
def parseTotalRange (ranges : List httpRange) (contentType : GoString) (contentSize : Int)
    (boundary : GoString) : Int :=
  let r := parseTotalRangeLoop contentType contentSize ranges (NewWriter boundary) 0 0
  let w := wrap64 (r.2.1 + byteLen r.1.Close)
  wrap64 (r.2.2 + w)

/-! ## Files and responses -/

/-- A `webdav.File` as the request paths see it: whether it is a directory,
the number of bytes of its content, and the failures of its operations
(`none` when the operation works). -/
structure File where
  isDir : Bool
  length : Nat
  statFails : Option String
  seekFails : Option String
  readFails : Option String

/-- The call `f.Seek(offset, io.SeekStart)`: the new position, or the error; a
negative position is an error. -/
def File.SeekStart (f : File) (offset : Int) : Int × Option String :=
  match f.seekFails with
  | some e => (0, some e)
  | none => if offset < 0 then (0, some "negative position") else (offset, none)

/-- The call `f.Seek(0, io.SeekEnd)`: the size of the content, or the error. -/
def File.SeekEnd (f : File) : Int × Option String :=
  match f.seekFails with
  | some e => (0, some e)
  | none => (f.length, none)

/-- The call `io.CopyN(dst, f, n)` with the file at position `pos`: the
number of bytes copied and the error. At most `n` bytes are read, none for
`n ≤ 0`; fewer than `n` bytes without another error is `EOF`. -/
def File.CopyN (f : File) (pos n : Int) : Int × Option String :=
  let copied : Int × Option String :=
    if n ≤ 0 then (0, none)
    else match f.readFails with
      | some e => (0, some e)
      | none => (min n (max (f.length - pos) 0), none)
  if copied.1 = n then (n, none)
  else if copied.1 < n ∧ copied.2 = none then (copied.1, some "EOF")
  else copied

/-- A piece of a response body: text, or `length` bytes of the file from the
position `start`. -/
inductive Chunk where
  | text (s : GoString)
  | data (start length : Int)

/-- The number of bytes of a piece of a body. -/
def Chunk.size : Chunk → Nat
  | .text s => byteLen s
  | .data _ length => length.toNat

/-- The number of bytes of a body. -/
def bodySize (body : List Chunk) : Nat := (body.map Chunk.size).sum

/-- The loop of the producer of `serveGet` for two or more ranges: for each
range, in order, the part header on the multipart writer `mw`, a seek to the
start and the copy of `length` bytes into the part; then the closing boundary.
The result is what was written to the pipe and the error the pipe was closed
with. -/
def produceLoop (f : File) (contentType : GoString) (size : Int) :
    List httpRange → Writer → List Chunk → List Chunk × Option String
  | [], mw, out => (out ++ [.text mw.Close], none)
  | ra :: rest, mw, out =>
    let part := mw.CreatePart (ra.mimeHeader contentType size)
    let out1 := out ++ [.text part.1]
    match (f.SeekStart ra.start).2 with
    | some e => (out1, some e)
    | none =>
      let copied := f.CopyN ra.start ra.length
      let out2 := out1 ++ [.data ra.start copied.1]
      match copied.2 with
      | some e => (out2, some e)
      | none => produceLoop f contentType size rest part.2 out2

/-- The producer of `serveGet` for two or more ranges, on the multipart
writer with the given boundary. -/
def produce (f : File) (ranges : List httpRange) (contentType : GoString) (size : Int)
    (boundary : GoString) : List Chunk × Option String :=
  produceLoop f contentType size ranges (NewWriter boundary) []

/-- An `http.ResponseWriter`: the header map, the status and the headers sent
by the first `WriteHeader`, and the number of bytes of body written. -/
structure ResponseWriter where
  header : List (GoString × GoString)
  status : Option Nat
  sent : List (GoString × GoString)
  body : Nat

/-- The response writer of a new request. -/
def ResponseWriter.new : ResponseWriter := { header := [], status := none, sent := [], body := 0 }

/-- The call `w.Header().Set(key, value)`. -/
def ResponseWriter.Set (w : ResponseWriter) (key value : GoString) : ResponseWriter :=
  { w with header := (key, value) :: w.header.filter (fun kv => kv.1 ≠ key) }

/-- The call `w.WriteHeader(code)`: the first call sends the status and the
headers, a later call changes nothing. -/
def ResponseWriter.WriteHeader (w : ResponseWriter) (code : Nat) : ResponseWriter :=
  match w.status with
  | some _ => w
  | none => { w with status := some code, sent := w.header }

/-- A write of `n` bytes of body, which sends status 200 when no status has
been sent. -/
def ResponseWriter.Write (w : ResponseWriter) (n : Nat) : ResponseWriter :=
  let w := w.WriteHeader 200
  { w with body := w.body + n }

/-- The call `http.Error(w, msg, code)`. -/
def httpError (w : ResponseWriter) (msg : String) (code : Nat) : ResponseWriter :=
  let w := w.Set "Content-Type".toList "text/plain; charset=utf-8".toList
  let w := w.Set "X-Content-Type-Options".toList "nosniff".toList
  let w := w.WriteHeader code
  w.Write (byteLen msg.toList + 1)

/-- A header of the response as it was sent. -/
def ResponseWriter.sentHeader (w : ResponseWriter) (key : GoString) : Option GoString :=
  w.sent.lookup key

/-- The method `Server.parseSize`: the size of the content, by a seek to
the end of the content and a seek back to its start. -/
def parseSize (content : File) : Int × Option String :=
  match content.SeekEnd with
  | (_, some e) => (0, some e)
  | (size, none) =>
    match (content.SeekStart 0).2 with
    | some e => (0, some e)
    | none => (size, none)

/-- The number of bytes a copy can read from the file at position `pos`: none
when reads fail, else what remains of the content. -/
def File.avail (f : File) (pos : Int) : Nat :=
  match f.readFails with
  | some _ => 0
  | none => (f.length - pos).toNat

/-- The last step of `serveGet`, `io.CopyN` into the response: the copy of
`sendSize` bytes of a content that has `avail` bytes and then ends with the
error `srcErr` or the end of the data, and `http.Error` with status 405 when
fewer than `sendSize` bytes were copied. -/
def sendBody (w : ResponseWriter) (avail : Nat) (srcErr : Option String) (sendSize : Int) :
    ResponseWriter :=
  let n := min sendSize.toNat avail
  let w := if n = 0 then w else w.Write n
  if (n : Int) = sendSize ∨ sendSize ≤ 0 then w
  else httpError w (srcErr.getD "EOF") 405

/-- The method `Server.serveGet`. `openFile` is the result of
`FileSystem.OpenFile`, `range` the value of the `Range` header, `contentType`
the type `mime.TypeByExtension` gives for the path, `boundary` the boundary of
the multipart writer of the response and `boundary2` the one of the writer of
`parseTotalRange`. The rate limit does not change what is sent. -/
def serveGet (w : ResponseWriter) (openFile : Except String File) (range contentType : GoString)
    (boundary boundary2 : GoString) : ResponseWriter :=
  match openFile with
  | .error e => httpError w e 404
  | .ok f =>
    match f.statFails with
    | some e => httpError w e 404
    | none =>
      if f.isDir then httpError w "can not get a folder directly!" 405
      else
        match parseSize f with
        | (_, some e) => httpError w e 409
        | (size, none) =>
          match parseHTTPRange range size with
          | (_, some e) => httpError w e 416
          | (rangeArray, none) =>
            match rangeArray with
            | [] =>
              let w := w.Set "Accept-Ranges".toList "bytes".toList
              let w := w.Set "Content-Length".toList (formatInt size)
              let w := w.WriteHeader 200
              sendBody w (f.avail 0) f.readFails size
            | [ra] =>
              match (f.SeekStart ra.start).2 with
              | some e => httpError w e 416
              | none =>
                let w := w.Set "Content-Range".toList (ra.contentRange size)
                let w := w.Set "Accept-Ranges".toList "bytes".toList
                let w := w.Set "Content-Length".toList (formatInt ra.length)
                let w := w.WriteHeader 206
                sendBody w (f.avail ra.start) f.readFails ra.length
            | _ =>
              let w := w.Set "Content-Type".toList
                ("multipart/byteranges; boundary=".toList ++ boundary)
              let sendSize := parseTotalRange rangeArray contentType size boundary2
              let pipe := produce f rangeArray contentType size boundary
              let w := w.Set "Accept-Ranges".toList "bytes".toList
              let w := w.Set "Content-Length".toList (formatInt sendSize)
              let w := w.WriteHeader 206
              sendBody w (bodySize pipe.1) pipe.2 sendSize

/-! ## The lock system and `servePut` -/

/-- The struct `webdav.LockDetails`, with the fields `servePut` sets. -/
structure LockDetails where
  root : GoString
  duration : Int
  zeroDepth : Bool
  deriving DecidableEq

/-- The lock system of a handler, `webdav.NewMemLS()`, as the set of the locks
it holds: the counter `gen` of the tokens issued and the held locks by token.
`canCreate` is the conflict rule of the lock system: whether a lock can be
created given the locks held. -/
structure LockSystem where
  canCreate : List (GoString × LockDetails) → LockDetails → Bool
  gen : Nat
  held : List (GoString × LockDetails)

/-- The tokens a lock system holds. -/
def LockSystem.tokens (ls : LockSystem) : List GoString := ls.held.map Prod.fst

/-- The method `LockSystem.Create`: a conflict returns the empty token and the
error `ErrLocked`; else the next token is issued and held. -/
def LockSystem.Create (ls : LockSystem) (details : LockDetails) :
    (GoString × Option String) × LockSystem :=
  if ls.canCreate ls.held details then
    let token := formatUint (ls.gen + 1)
    ((token, none),
      { ls with gen := ls.gen + 1,
                held := (token, details) :: ls.held.filter (fun l => l.1 ≠ token) })
  else (([], some "webdav: locked"), ls)

/-- The method `LockSystem.Unlock`: the lock with the token is removed, or
the error `ErrNoSuchLock` is returned. -/
def LockSystem.Unlock (ls : LockSystem) (token : GoString) : Option String × LockSystem :=
  if token ∈ ls.tokens then (none, { ls with held := ls.held.filter (fun l => l.1 ≠ token) })
  else (some "webdav: no such lock", ls)

/-- The deferred function of `servePut`: the token, unless empty, is unlocked. -/
def deferUnlock (ls : LockSystem) (token : GoString) : LockSystem :=
  if token ≠ [] then (ls.Unlock token).2 else ls

/-- The method `Server.servePut` on the lock system of the handler. `reqPath`
is the path of the request, `openFile` the result of `FileSystem.OpenFile`
(its error, if any) and `copy` the error of the copy of the request body into
the file, if any. The result is the response and the lock system after the
deferred unlock. -/
def servePut (w : ResponseWriter) (ls : LockSystem) (reqPath : GoString)
    (openFile copy : Option String) : ResponseWriter × LockSystem :=
  match ls.Create { root := reqPath, duration := -1, zeroDepth := true } with
  | ((_, some e), ls1) => (httpError w e 412, ls1)
  | ((token, none), ls1) =>
    match openFile with
    | some e => (httpError w e 404, deferUnlock ls1 token)
    | none =>
      match copy with
      | some e => (httpError w e 405, deferUnlock ls1 token)
      | none => (w.WriteHeader 201, deferUnlock ls1 token)

/-! ## The handler cache and `loadHandler` -/

/-- A `*webdav.Handler`: the identity `ref` of the allocation and the
directory its file system is rooted at, `filepath.Join(root, dir)`, kept as
the two arguments of the join. -/
structure Handler where
  ref : Nat
  root : GoString
  dir : GoString
  deriving DecidableEq

/-- The point a call of `loadHandler` has reached: before `Load`, after a
`Load` that found nothing, after building its own handler, and returned. A
returned call keeps the handler it returns and the handler it built, if any. -/
inductive Pc where
  | start
  | miss
  | built (h : Handler)
  | done (result : Handler) (own : Option Handler)
  deriving DecidableEq

/-- The handler a call has built, if any. -/
def Pc.own : Pc → Option Handler
  | .built h => some h
  | .done _ own => own
  | _ => none

/-- The steps a call still has to take at most. -/
def Pc.rank : Pc → Nat
  | .start => 3
  | .miss => 2
  | .built _ => 1
  | .done _ _ => 0

/-- The server with two calls of `loadHandler` in progress: the map
`handlers`, the next allocation and the points the two calls have reached. -/
structure Sys where
  handlers : GoString → Option Handler
  nextRef : Nat
  pc0 : Pc
  pc1 : Pc

/-- The point a call has reached; the calls are named `false` and `true`. -/
def Sys.pc (s : Sys) (t : Bool) : Pc := if t then s.pc1 else s.pc0

/-- The state with the point of one call replaced. -/
def Sys.setPc (s : Sys) (t : Bool) (pc : Pc) : Sys :=
  if t then { s with pc1 := pc } else { s with pc0 := pc }

/-- One atomic step of the call `t` of the method `Server.loadHandler(dir)`:
the `Load`, the construction of a handler for `filepath.Join(root, dir)`, or
the `LoadOrStore`, which stores the handler only when
the key has no entry and else returns the entry. The map holds handlers only,
so the type assertions of the source succeed and the handler returned is not
`nil`. A call that has returned does nothing. -/
def loadHandlerStep (root dir : GoString) (s : Sys) (t : Bool) : Sys :=
  match s.pc t with
  | .start =>
    match s.handlers dir with
    | some v => s.setPc t (.done v none)
    | none => s.setPc t .miss
  | .miss =>
    ({ s with nextRef := s.nextRef + 1 }).setPc t
      (.built { ref := s.nextRef, root := root, dir := dir })
  | .built h =>
    match s.handlers dir with
    | some v => s.setPc t (.done v (some h))
    | none =>
      ({ s with handlers := fun k => if k = dir then some h else s.handlers k }).setPc t
        (.done h (some h))
  | .done _ _ => s

/-- The state after the steps of a schedule, which names the call that takes
each step. -/
def run (root dir : GoString) : List Bool → Sys → Sys
  | [], s => s
  | t :: sched, s => run root dir sched (loadHandlerStep root dir s t)

/-- The state in which two calls of `loadHandler` start on the map `m`. -/
def initSys (m : GoString → Option Handler) (nextRef : Nat) : Sys :=
  { handlers := m, nextRef := nextRef, pc0 := .start, pc1 := .start }

/-- The number of bytes of the envelope of a multipart body: the part headers
of the ranges on the writer `mw` and the closing boundary. -/
def envelopeLen (contentType : GoString) (size : Int) : List httpRange → Writer → Nat
  | [], mw => byteLen mw.Close
  | ra :: rest, mw =>
    byteLen (mw.CreatePart (ra.mimeHeader contentType size)).1 +
      envelopeLen contentType size rest (mw.CreatePart (ra.mimeHeader contentType size)).2

/-- The sum of the lengths of a list of ranges. -/
def payloadLen : List httpRange → Int
  | [] => 0
  | ra :: rest => ra.length + payloadLen rest

/-- The response to a request without ranges, before the body. -/
def headNone (size : Int) : ResponseWriter :=
  ((ResponseWriter.new.Set "Accept-Ranges".toList "bytes".toList).Set
    "Content-Length".toList (formatInt size)).WriteHeader 200

/-- The response to a request for one range, before the body. -/
def headOne (ra : httpRange) (size : Int) : ResponseWriter :=
  (((ResponseWriter.new.Set "Content-Range".toList (ra.contentRange size)).Set
    "Accept-Ranges".toList "bytes".toList).Set
    "Content-Length".toList (formatInt ra.length)).WriteHeader 206

/-- The response to a request for two ranges or more, before the body. -/
def headMulti (boundary : GoString) (sendSize : Int) : ResponseWriter :=
  (((ResponseWriter.new.Set "Content-Type".toList
      ("multipart/byteranges; boundary=".toList ++ boundary)).Set
    "Accept-Ranges".toList "bytes".toList).Set
    "Content-Length".toList (formatInt sendSize)).WriteHeader 206

/-- The file of 1000 bytes of the examples, whose operations all work. -/
def exampleFile : File :=
  { isDir := false, length := 1000, statFails := none, seekFails := none, readFails := none }

/-- A boundary of sixty characters, the length of the boundaries that
`multipart.NewWriter` draws: the one of the writer of the response body in the
examples. -/
def exampleBoundary : GoString :=
  "0123456789abcdef0123456789abcdef0123456789abcdef0123456789ab".toList

/-- The boundary of the writer of `parseTotalRange` in the examples. -/
def exampleBoundary2 : GoString :=
  "fedcba9876543210fedcba9876543210fedcba9876543210fedcba987654".toList

/-- The details of the lock `servePut` asks for on a path: zero depth and no
expiry. -/
def putDetails (reqPath : GoString) : LockDetails :=
  { root := reqPath, duration := -1, zeroDepth := true }

/-- The invariant of two calls of `loadHandler(dir)` that started on the map
`m0` with the next allocation `n0`: the entries of the other keys are those of
`m0`; the entry of `dir` was built by one of the calls; the handlers the calls
built are allocations after `n0`, different for the two calls; a handler that
is built and not yet offered to the map is not in it; and a call that has
returned returns the entry of `dir`. -/
structure Inv (m0 : GoString → Option Handler) (n0 : Nat) (dir : GoString) (s : Sys) :
    Prop where
  others : ∀ k, k ≠ dir → s.handlers k = m0 k
  stored : ∀ h, s.handlers dir = some h → ∃ t, (s.pc t).own = some h
  fresh : ∀ t b, (s.pc t).own = some b → n0 ≤ b.ref ∧ b.ref < s.nextRef
  distinct : ∀ t b b2, (s.pc t).own = some b → (s.pc (!t)).own = some b2 → b.ref ≠ b2.ref
  pending : ∀ t b, s.pc t = .built b → s.handlers dir ≠ some b
  returned : ∀ t r o, s.pc t = .done r o → s.handlers dir = some r
  next : n0 ≤ s.nextRef

/-- The lock system of the examples: no lock held, and a conflict rule that
refuses a lock on a root that is already locked. -/
def exampleLocks : LockSystem :=
  { canCreate := fun held details => !(held.any fun l => l.2.root = details.root),
    gen := 0, held := [] }

/-- The status `servePut` answers with when the lock was acquired, by the
errors of the open and of the copy. -/
def putStatus (openFile copy : Option String) : Nat :=
  match openFile, copy with
  | some _, _ => 404
  | none, some _ => 405
  | none, none => 201

/-- The units of a header as the parser reads them: the pieces between the
commas of what follows the `=`, without the white space around them, the empty
ones left out. -/
def headerUnits (header : GoString) : List GoString :=
  ((split ',' ((split '=' header).getD 1 [])).map trimSpace).filter fun t => decide (t ≠ [])

/-- Whether every character of a string is a decimal digit. -/
def allDigits (s : GoString) : Bool :=
  s.all fun c => decide (48 ≤ c.toNat) && decide (c.toNat ≤ 57)

/-- The integer a string denotes as a decimal integer, of any size: an optional
sign followed by one or more digits; `none` for a string that is not a decimal
integer. -/
def decimalValue : GoString → Option Int
  | [] => none
  | c :: cs =>
    let digits := if c = '+' ∨ c = '-' then cs else c :: cs
    if digits ≠ [] ∧ allDigits digits = true then
      some (if c = '-' then -(digitsValue 0 digits : Int) else (digitsValue 0 digits : Int))
    else none

/-- The units that make a `Range` header fail, for a resource of `size`
bytes: a unit without `-`, a unit with a bound that is present and is not a
decimal integer or with no bound at all, a unit whose start is the decimal
integer `S` with `S ≥ size`, and a unit whose end is the decimal integer `E`
with `E < S`. The bounds of a unit are what stands before and after its first
`-`, without the white space around them; the integers are of any size. -/
inductive BadUnit (size : Int) (u : GoString) : Prop where
  | noSeparator : '-' ∉ trimSpace u → BadUnit size u
  | badStart (a b : GoString) : trimSpace u = a ++ '-' :: b → '-' ∉ a →
      trimSpace a ≠ [] → decimalValue (trimSpace a) = none → BadUnit size u
  | badEnd (a b : GoString) : trimSpace u = a ++ '-' :: b → '-' ∉ a →
      trimSpace b ≠ [] → decimalValue (trimSpace b) = none → BadUnit size u
  | noBound (a b : GoString) : trimSpace u = a ++ '-' :: b → '-' ∉ a →
      trimSpace a = [] → trimSpace b = [] → BadUnit size u
  | startBeyondSize (a b : GoString) (S : Int) : trimSpace u = a ++ '-' :: b → '-' ∉ a →
      decimalValue (trimSpace a) = some S → size ≤ S → BadUnit size u
  | endBeforeStart (a b : GoString) (S E : Int) : trimSpace u = a ++ '-' :: b → '-' ∉ a →
      decimalValue (trimSpace a) = some S → decimalValue (trimSpace b) = some E → E < S →
      BadUnit size u

/-! ## Lemmas on the string functions -/

theorem split_of_not_mem (sep : Char) (s : GoString) (h : sep ∉ s) :
    split sep s = [s] := by
  induction s with
  | nil => rfl
  | cons x xs ih =>
    have hx : x ≠ sep := fun e => h (by simp [e])
    have hxs : sep ∉ xs := fun e => h (by simp [e])
    simp [split, hx, ih hxs, consHead]

theorem split_append_sep (sep : Char) (a b : GoString) (h : sep ∉ a) :
    split sep (a ++ sep :: b) = a :: split sep b := by
  induction a with
  | nil => simp [split]
  | cons x xs ih =>
    have hx : x ≠ sep := fun e => h (by simp [e])
    have hxs : sep ∉ xs := fun e => h (by simp [e])
    simp [split, hx, ih hxs, consHead]

theorem split_joinUnits (us : List GoString) (hne : us ≠ [])
    (h : ∀ u ∈ us, ',' ∉ u) : split ',' (joinUnits us) = us := by
  induction us with
  | nil => exact absurd rfl hne
  | cons u rest ih =>
    cases rest with
    | nil => simpa [joinUnits] using split_of_not_mem ',' u (h u (by simp))
    | cons v rest2 =>
      have hu : ',' ∉ u := h u (by simp)
      have hrest : ∀ w ∈ v :: rest2, ',' ∉ w := fun w hw => h w (by simp [hw])
      have := ih (by simp) hrest
      simp only [joinUnits]
      rw [split_append_sep ',' u _ hu, this]

theorem not_mem_joinUnits (c : Char) (hc : c ≠ ',') (us : List GoString)
    (h : ∀ u ∈ us, c ∉ u) : c ∉ joinUnits us := by
  induction us with
  | nil => simp [joinUnits]
  | cons u rest ih =>
    cases rest with
    | nil => simpa [joinUnits] using h u (by simp)
    | cons v rest2 =>
      have hu : c ∉ u := h u (by simp)
      have hrest : ∀ w ∈ v :: rest2, c ∉ w := fun w hw => h w (by simp [hw])
      have := ih hrest
      simp only [joinUnits, List.mem_append, List.mem_cons, not_or]
      exact ⟨hu, hc, this⟩

theorem dropWhile_of_no_space (s : GoString) (h : ∀ c ∈ s, isSpace c = false) :
    s.dropWhile isSpace = s := by
  cases s with
  | nil => rfl
  | cons x xs => simp [List.dropWhile, h x (by simp)]

theorem trimSpace_of_no_space (s : GoString) (h : ∀ c ∈ s, isSpace c = false) :
    trimSpace s = s := by
  unfold trimSpace
  rw [dropWhile_of_no_space s h, dropWhile_of_no_space s.reverse (by simpa using h)]
  simp

theorem trimSpace_nil : trimSpace [] = [] := rfl

theorem index_neg_iff (sep : Char) (s : GoString) : index sep s < 0 ↔ sep ∉ s := by
  induction s with
  | nil => simp [index]
  | cons x xs ih =>
    by_cases hx : x = sep
    · simp [index, hx]
    · have hx2 : ¬ sep = x := fun e => hx e.symm
      by_cases hi : index sep xs < 0
      · simp [index, hx, hx2, hi, ih.mp hi]
      · have hmem : sep ∈ xs := by
          by_contra hc
          exact hi (ih.mpr hc)
        simp only [index, hx, if_false, hi, List.mem_cons, hx2, hmem, or_true, not_true,
          iff_false, not_lt]
        omega

theorem index_append_sep (sep : Char) (a b : GoString) (h : sep ∉ a) :
    index sep (a ++ sep :: b) = a.length := by
  induction a with
  | nil => simp [index]
  | cons x xs ih =>
    have hx : x ≠ sep := fun e => h (by simp [e])
    have hxs : sep ∉ xs := fun e => h (by simp [e])
    have := ih hxs
    have hneg : ¬ ((xs.length : Int) < 0) := by omega
    show index sep (x :: (xs ++ sep :: b)) = _
    simp only [index, hx, if_false, List.length_cons]
    rw [this]
    simp [hneg]

/-! ## Lemmas on `strconv` -/

theorem digitChar_toNat (d : Nat) (h : d < 10) : (digitChar d).toNat = 48 + d := by
  interval_cases d <;> rfl

theorem isDigit_digitChar (d : Nat) (h : d < 10) : isDigit (digitChar d) := by
  unfold isDigit
  rw [digitChar_toNat d h]
  omega

theorem digitsValue_append (v : Nat) (a b : GoString) :
    digitsValue v (a ++ b) = digitsValue (digitsValue v a) b := by
  simp [digitsValue, List.foldl_append]

theorem le_digitsValue (ds : GoString) (v : Nat) : v ≤ digitsValue v ds := by
  induction ds generalizing v with
  | nil => simp [digitsValue]
  | cons c cs ih =>
    have := ih (v * 10 + (c.toNat - 48))
    simp only [digitsValue, List.foldl_cons] at this ⊢
    omega

/-- The digits written by `digitsFuel` with enough fuel: a non-empty string
of decimal digits whose value is `n`. -/
theorem digitsFuel_spec (fuel n : Nat) (acc : GoString) (h : n < fuel) :
    ∃ ds : GoString, digitsFuel fuel n acc = ds ++ acc ∧ ds ≠ [] ∧
      (∀ c ∈ ds, isDigit c) ∧ digitsValue 0 ds = n := by
  induction fuel generalizing n acc with
  | zero => omega
  | succ fuel ih =>
    have hmod : n % 10 < 10 := Nat.mod_lt _ (by decide)
    by_cases hq : n / 10 = 0
    · refine ⟨[digitChar (n % 10)], by simp [digitsFuel, hq], by simp, ?_, ?_⟩
      · intro c hc
        simp only [List.mem_singleton] at hc
        subst hc
        exact isDigit_digitChar _ hmod
      · simp only [digitsValue, List.foldl_cons, List.foldl_nil, digitChar_toNat _ hmod]
        omega
    · have hlt : n / 10 < fuel := by omega
      obtain ⟨ds, h1, _, h3, h4⟩ := ih (n / 10) (digitChar (n % 10) :: acc) hlt
      refine ⟨ds ++ [digitChar (n % 10)], by simp [digitsFuel, hq, h1], by simp, ?_, ?_⟩
      · intro c hc
        simp only [List.mem_append, List.mem_singleton] at hc
        rcases hc with hc | hc
        · exact h3 c hc
        · subst hc
          exact isDigit_digitChar _ hmod
      · rw [digitsValue_append, h4]
        simp only [digitsValue, List.foldl_cons, List.foldl_nil, digitChar_toNat _ hmod]
        omega

theorem formatUint_spec (n : Nat) :
    formatUint n ≠ [] ∧ (∀ c ∈ formatUint n, isDigit c) ∧ digitsValue 0 (formatUint n) = n := by
  obtain ⟨ds, h1, h2, h3, h4⟩ := digitsFuel_spec (n + 1) n [] (by omega)
  have : formatUint n = ds := by simpa [formatUint] using h1
  rw [this]
  exact ⟨h2, h3, h4⟩

/-- The digit loop of `ParseUint` returns the value of a digit string that
stays in the `uint64` range. -/
theorem parseUintLoop_digits (ds : GoString) (v : Nat) (hd : ∀ c ∈ ds, isDigit c)
    (hv : digitsValue v ds ≤ 18446744073709551615) :
    parseUintLoop v ds = .ok (digitsValue v ds) := by
  induction ds generalizing v with
  | nil => simp [parseUintLoop, digitsValue]
  | cons c cs ih =>
    have hc : 48 ≤ c.toNat ∧ c.toNat ≤ 57 := hd c (by simp)
    have hcs : ∀ c ∈ cs, isDigit c := fun c hc => hd c (by simp [hc])
    have hstep : digitsValue v (c :: cs) = digitsValue (v * 10 + (c.toNat - 48)) cs := by
      simp [digitsValue]
    rw [hstep] at hv ⊢
    have hle := le_digitsValue cs (v * 10 + (c.toNat - 48))
    have h1 : ¬ v ≥ 18446744073709551615 / 10 + 1 := by
      norm_num
      omega
    have h2 : (v * 10 + (c.toNat - 48)) % 18446744073709551616 = v * 10 + (c.toNat - 48) :=
      Nat.mod_eq_of_lt (by omega)
    have h3 : ¬ (v * 10 + (c.toNat - 48) < v * 10 ∨
        v * 10 + (c.toNat - 48) > 18446744073709551615) := by omega
    simp only [parseUintLoop, hc, and_self, if_true, h1, if_false, h2, h3]
    exact ih _ hcs hv

/-- Parsing the decimal rendering of a non-negative `int64` gives it back. -/
theorem parseInt_formatInt (k : Int) (h0 : 0 ≤ k) (h1 : k < 9223372036854775808) :
    parseInt (formatInt k) = .ok k := by
  obtain ⟨hne, hd, hv⟩ := formatUint_spec k.natAbs
  have hf : formatInt k = formatUint k.natAbs := by simp [formatInt, not_lt.mpr h0]
  rw [hf]
  cases hds : formatUint k.natAbs with
  | nil => exact absurd hds hne
  | cons c cs =>
    rw [hds] at hd hv
    have hc : 48 ≤ c.toNat ∧ c.toNat ≤ 57 := hd c (by simp)
    have hplus : c ≠ '+' := by
      intro e
      subst e
      have := hc.1
      revert this
      decide
    have hminus : c ≠ '-' := by
      intro e
      subst e
      have := hc.1
      revert this
      decide
    have hloop := parseUintLoop_digits (c :: cs) 0 hd (by rw [hv]; omega)
    rw [hv] at hloop
    have hnat : ((k.natAbs : Nat) : Int) = k := by omega
    have hbound : ¬ (k.natAbs ≥ 9223372036854775808) := by omega
    simp [parseInt, parseUint, hplus, hminus, hloop, hbound, hnat]

theorem not_mem_of_digits (c : Char) (hc : ¬ isDigit c) (ds : GoString)
    (hd : ∀ x ∈ ds, isDigit x) : c ∉ ds := fun hmem => hc (hd c hmem)

theorem isSpace_of_isDigit (c : Char) (hc : isDigit c) : isSpace c = false := by
  unfold isDigit at hc
  simp only [isSpace, Bool.or_eq_false_iff, Bool.and_eq_false_iff, decide_eq_false_iff_not]
  omega

/-! ## Lemmas on the range parser -/

theorem parseRangeInfo_eq (rangeInfo : GoString) (size : Int) :
    parseRangeInfo rangeInfo size =
      if index '-' rangeInfo < 0 then .error "invalid range"
      else parseBounds (trimSpace (rangeInfo.take (index '-' rangeInfo).toNat))
        (trimSpace (rangeInfo.drop ((index '-' rangeInfo).toNat + 1))) size := rfl

theorem parseRangeInfo_append (a b : GoString) (size : Int) (h : '-' ∉ a) :
    parseRangeInfo (a ++ '-' :: b) size = parseBounds (trimSpace a) (trimSpace b) size := by
  rw [parseRangeInfo_eq, index_append_sep '-' a b h]
  have hneg : ¬ ((a.length : Int) < 0) := by omega
  simp [hneg]

theorem split_schemeBytes (rest : GoString) (h : '=' ∉ rest) :
    split '=' (schemeBytes ++ rest) = ["bytes".toList, rest] := by
  have h1 : schemeBytes ++ rest = "bytes".toList ++ '=' :: rest := rfl
  rw [h1, split_append_sep '=' _ rest (by decide), split_of_not_mem '=' rest h]

/-- On a header `bytes=` followed by a value without `=`, the parser runs its
loop over the comma separated units of the value. -/
theorem parseHTTPRange_bytes (rest : GoString) (size : Int) (h : '=' ∉ rest) :
    parseHTTPRange (schemeBytes ++ rest) size = parseRangeLoop size (split ',' rest) [] := by
  unfold parseHTTPRange
  rw [split_schemeBytes rest h]
  have hfold : equalFold ['b', 'y', 't', 'e', 's'] ['b', 'y', 't', 'e', 's', '='] = false := by
    decide
  simp [hfold]

/-- On a header `bytes=` followed by one unit, the parser returns what the
loop body returns on the trimmed unit. -/
theorem parseHTTPRange_unit (u : GoString) (size : Int) (h1 : '=' ∉ u) (h2 : ',' ∉ u) :
    parseHTTPRange (schemeBytes ++ u) size =
      if trimSpace u = [] then ([], none)
      else match parseRangeInfo (trimSpace u) size with
        | .error e => ([], some e)
        | .ok r => ([r], none) := by
  rw [parseHTTPRange_bytes u size h1, split_of_not_mem ',' u h2]
  simp only [parseRangeLoop]
  split
  · rfl
  · split <;> simp_all [parseRangeLoop]

theorem formatInt_digits (k : Int) (h0 : 0 ≤ k) :
    formatInt k ≠ [] ∧ ∀ c ∈ formatInt k, isDigit c := by
  have hf : formatInt k = formatUint k.natAbs := by simp [formatInt, not_lt.mpr h0]
  rw [hf]
  exact ⟨(formatUint_spec _).1, (formatUint_spec _).2.1⟩

theorem wrap64_of_range (x : Int) (h0 : -9223372036854775808 ≤ x)
    (h1 : x < 9223372036854775808) : wrap64 x = x := by
  unfold wrap64
  omega

/-- A unit made of digit strings and `-` signs has no `=`, no `,` and no
white space, so it is a unit of its own that trimming leaves unchanged. -/
theorem unit_facts (u : GoString) (h : ∀ c ∈ u, isDigit c ∨ c = '-') :
    '=' ∉ u ∧ ',' ∉ u ∧ trimSpace u = u := by
  refine ⟨?_, ?_, ?_⟩
  · intro hm
    rcases h _ hm with hd | hd
    · revert hd; unfold isDigit; decide
    · revert hd; decide
  · intro hm
    rcases h _ hm with hd | hd
    · revert hd; unfold isDigit; decide
    · revert hd; decide
  · apply trimSpace_of_no_space
    intro c hc
    rcases h c hc with hd | hd
    · exact isSpace_of_isDigit c hd
    · subst hd; decide

theorem trimSpace_digits (ds : GoString) (h : ∀ c ∈ ds, isDigit c) : trimSpace ds = ds :=
  trimSpace_of_no_space ds (fun c hc => isSpace_of_isDigit c (h c hc))

theorem dash_not_mem_digits (ds : GoString) (h : ∀ c ∈ ds, isDigit c) : '-' ∉ ds :=
  not_mem_of_digits '-' (by unfold isDigit; decide) ds h

/-- The parse of the single unit `S-E` for decimal renderings of `S` and `E`. -/
theorem parse_start_end (size S E : Int) (hS : 0 ≤ S) (hSs : S < size) (hSE : S ≤ E)
    (hE : E < 9223372036854775808) (hsize : size < 9223372036854775808) :
    parseHTTPRange (schemeBytes ++ (formatInt S ++ '-' :: formatInt E)) size =
      ([{ start := S, length := min E (size - 1) - S + 1 }], none) := by
  obtain ⟨hSne, hSd⟩ := formatInt_digits S hS
  obtain ⟨hEne, hEd⟩ := formatInt_digits E (by omega)
  have hu : ∀ c ∈ formatInt S ++ '-' :: formatInt E, isDigit c ∨ c = '-' := by
    intro c hc
    simp only [List.mem_append, List.mem_cons] at hc
    rcases hc with hc | hc | hc
    · exact Or.inl (hSd c hc)
    · exact Or.inr hc
    · exact Or.inl (hEd c hc)
  obtain ⟨h1, h2, h3⟩ := unit_facts _ hu
  rw [parseHTTPRange_unit _ size h1 h2, h3,
    parseRangeInfo_append _ _ size (dash_not_mem_digits _ hSd),
    trimSpace_digits _ hSd, trimSpace_digits _ hEd]
  have hpS := parseInt_formatInt S hS (by omega)
  have hpE := parseInt_formatInt E (by omega) hE
  have hlen : (if E ≥ size then wrap64 (size - 1) else E) = min E (size - 1) := by
    split
    · rw [wrap64_of_range _ (by omega) (by omega)]; omega
    · omega
  have hw : wrap64 (wrap64 (min E (size - 1) - S) + 1) = min E (size - 1) - S + 1 := by
    rw [wrap64_of_range (min E (size - 1) - S) (by omega) (by omega)]
    exact wrap64_of_range _ (by omega) (by omega)
  simp [parseBounds, hSne, hEne, hpS, hpE, not_lt.mpr hS, not_le.mpr hSs, not_lt.mpr hSE,
    hlen, hw]

/-- The parse of the single unit `S-` for the decimal rendering of `S`. -/
theorem parse_start_open (size S : Int) (hS : 0 ≤ S) (hSs : S < size)
    (hsize : size < 9223372036854775808) :
    parseHTTPRange (schemeBytes ++ (formatInt S ++ ['-'])) size =
      ([{ start := S, length := size - S }], none) := by
  obtain ⟨hSne, hSd⟩ := formatInt_digits S hS
  have hu : ∀ c ∈ formatInt S ++ ['-'], isDigit c ∨ c = '-' := by
    intro c hc
    simp only [List.mem_append, List.mem_singleton] at hc
    rcases hc with hc | hc
    · exact Or.inl (hSd c hc)
    · exact Or.inr hc
  obtain ⟨h1, h2, h3⟩ := unit_facts _ hu
  rw [parseHTTPRange_unit _ size h1 h2, h3,
    parseRangeInfo_append _ _ size (dash_not_mem_digits _ hSd),
    trimSpace_digits _ hSd, trimSpace_nil]
  have hpS := parseInt_formatInt S hS (by omega)
  have hw : wrap64 (size - S) = size - S := wrap64_of_range _ (by omega) (by omega)
  simp [parseBounds, hSne, hpS, not_lt.mpr hS, not_le.mpr hSs, hw]

/-- The parse of the single unit `-N` for the decimal rendering of `N`. -/
theorem parse_suffix (size N : Int) (hsize0 : 0 ≤ size) (hN : 0 ≤ N)
    (hN1 : N < 9223372036854775808) (hsize : size < 9223372036854775808) :
    parseHTTPRange (schemeBytes ++ ('-' :: formatInt N)) size =
      ([{ start := size - min N size, length := min N size }], none) := by
  obtain ⟨hNne, hNd⟩ := formatInt_digits N hN
  have hu : ∀ c ∈ '-' :: formatInt N, isDigit c ∨ c = '-' := by
    intro c hc
    simp only [List.mem_cons] at hc
    rcases hc with hc | hc
    · exact Or.inr hc
    · exact Or.inl (hNd c hc)
  obtain ⟨h1, h2, h3⟩ := unit_facts _ hu
  rw [parseHTTPRange_unit _ size h1 h2, h3]
  have := parseRangeInfo_append [] (formatInt N) size (by simp)
  simp only [List.nil_append] at this
  rw [this, trimSpace_digits _ hNd, trimSpace_nil]
  have hpN := parseInt_formatInt N hN hN1
  have hmin : (if N > size then size else N) = min N size := by
    split <;> omega
  have hw : wrap64 (size - min N size) = size - min N size :=
    wrap64_of_range _ (by omega) (by omega)
  simp [parseBounds, hpN, hmin, hw]

/-! ## Lemmas on the loop over the units -/

theorem parseRangeLoop_ok (size : Int) (us : List GoString) (acc : List httpRange)
    (h : ∀ u ∈ us, (parseHTTPRange (schemeBytes ++ u) size).2 = none)
    (hus : ∀ u ∈ us, '=' ∉ u ∧ ',' ∉ u) :
    parseRangeLoop size us acc =
      (acc ++ us.flatMap (fun u => (parseHTTPRange (schemeBytes ++ u) size).1), none) := by
  induction us generalizing acc with
  | nil => simp [parseRangeLoop]
  | cons u rest ih =>
    have hrest := fun acc2 => ih acc2 (fun v hv => h v (by simp [hv]))
      (fun v hv => hus v (by simp [hv]))
    have hu := h u (by simp)
    have hunit := parseHTTPRange_unit u size (hus u (by simp)).1 (hus u (by simp)).2
    rw [List.flatMap_cons, hunit]
    rw [hunit] at hu
    by_cases ht : trimSpace u = []
    · simp only [parseRangeLoop, ht, if_true]
      rw [hrest acc]
      simp
    · cases hp : parseRangeInfo (trimSpace u) size with
      | error e => simp [ht, hp] at hu
      | ok r =>
        simp only [parseRangeLoop, ht, if_false, hp]
        rw [hrest (acc ++ [r])]
        simp

theorem parseRangeLoop_error (size : Int) (us : List GoString) (acc : List httpRange)
    (h : ∃ u ∈ us, trimSpace u ≠ [] ∧ ∃ e, parseRangeInfo (trimSpace u) size = .error e) :
    ∃ e, parseRangeLoop size us acc = ([], some e) := by
  induction us generalizing acc with
  | nil =>
    obtain ⟨u, hu, _⟩ := h
    simp at hu
  | cons u rest ih =>
    obtain ⟨v, hv, hne, e, he⟩ := h
    by_cases hu : trimSpace u = []
    · have hvr : v ∈ rest := by
        rcases List.mem_cons.mp hv with hv | hv
        · subst hv; exact absurd hu hne
        · exact hv
      simp only [parseRangeLoop, hu, if_true]
      exact ih acc ⟨v, hvr, hne, e, he⟩
    · cases hp : parseRangeInfo (trimSpace u) size with
      | error e2 => exact ⟨e2, by simp [parseRangeLoop, hu, hp]⟩
      | ok r =>
        have hvr : v ∈ rest := by
          rcases List.mem_cons.mp hv with hv | hv
          · subst hv; rw [hp] at he; cases he
          · exact hv
        simp only [parseRangeLoop, hu, if_false, hp]
        exact ih _ ⟨v, hvr, hne, e, he⟩

/-- The loop of the parser on the comma separated units of a header. -/
theorem parseHTTPRange_joinUnits (size : Int) (us : List GoString)
    (hus : ∀ u ∈ us, '=' ∉ u ∧ ',' ∉ u) :
    parseHTTPRange (schemeBytes ++ joinUnits us) size =
      parseRangeLoop size (if us = [] then [[]] else us) [] := by
  rw [parseHTTPRange_bytes _ size
    (not_mem_joinUnits '=' (by decide) us (fun u hu => (hus u hu).1))]
  by_cases hne : us = []
  · subst hne
    simp [joinUnits, split]
  · rw [split_joinUnits us hne (fun u hu => (hus u hu).2)]
    simp [hne]

theorem parseUintLoop_ok_digits (ds : GoString) (v r : Nat)
    (h : parseUintLoop v ds = .ok r) : ∀ c ∈ ds, isDigit c := by
  induction ds generalizing v with
  | nil => simp
  | cons c cs ih =>
    by_cases hc : 48 ≤ c.toNat ∧ c.toNat ≤ 57
    · simp only [parseUintLoop, hc, and_self, if_true] at h
      split at h
      · cases h
      · split at h
        · cases h
        · intro x hx
          rcases List.mem_cons.mp hx with hx | hx
          · subst hx; exact hc
          · exact ih _ h x hx
    · simp [parseUintLoop, hc] at h

theorem parseUint_ok_digits (s : GoString) (r : Nat) (h : parseUint s = .ok r) :
    s ≠ [] ∧ ∀ c ∈ s, isDigit c := by
  unfold parseUint at h
  by_cases hs : s = []
  · simp [hs] at h
  · simp only [hs, if_false] at h
    exact ⟨hs, parseUintLoop_ok_digits _ _ _ h⟩

theorem parseUintLoop_ok_value (ds : GoString) (v r : Nat)
    (h : parseUintLoop v ds = .ok r) : r = digitsValue v ds := by
  induction ds generalizing v with
  | nil =>
    simp only [parseUintLoop] at h
    cases h
    rfl
  | cons c cs ih =>
    by_cases hc : 48 ≤ c.toNat ∧ c.toNat ≤ 57
    · simp only [parseUintLoop, hc, and_self, if_true] at h
      split at h
      · cases h
      · rename_i hcut
        split at h
        · cases h
        · rename_i hover
          have hmod : (v * 10 + (c.toNat - 48)) % 18446744073709551616 =
              v * 10 + (c.toNat - 48) := by
            apply Nat.mod_eq_of_lt
            norm_num at hcut
            omega
          rw [hmod] at h
          have := ih _ h
          simpa [digitsValue] using this
    · simp [parseUintLoop, hc] at h

theorem allDigits_of_digits (ds : GoString) (h : ∀ c ∈ ds, isDigit c) : allDigits ds = true := by
  unfold allDigits
  rw [List.all_eq_true]
  intro c hc
  have := h c hc
  unfold isDigit at this
  simp [this.1, this.2]

/-- What `ParseInt` accepts is a decimal integer, and `ParseInt` returns the
integer it denotes. -/
theorem decimalValue_of_parseInt (s : GoString) (v : Int) (h : parseInt s = .ok v) :
    decimalValue s = some v := by
  cases s with
  | nil => simp [parseInt] at h
  | cons c cs =>
    by_cases hs : c = '+' ∨ c = '-'
    · cases hp : parseUint cs with
      | error e => simp [parseInt, hs, hp] at h
      | ok un =>
        obtain ⟨hne, hd⟩ := parseUint_ok_digits _ _ hp
        have hval : un = digitsValue 0 cs := by
          unfold parseUint at hp
          simp only [hne, if_false] at hp
          exact parseUintLoop_ok_value _ _ _ hp
        simp only [parseInt, hs, if_true, hp] at h
        simp only [decimalValue, hs, if_true, hne, ne_eq, not_false_eq_true,
          allDigits_of_digits cs hd, and_self]
        split at h
        · cases h
        · split at h
          · cases h
          · cases h
            rw [hval]
    · cases hp : parseUint (c :: cs) with
      | error e => simp [parseInt, hs, hp] at h
      | ok un =>
        obtain ⟨hne, hd⟩ := parseUint_ok_digits _ _ hp
        have hval : un = digitsValue 0 (c :: cs) := by
          unfold parseUint at hp
          simp only [hne, if_false] at hp
          exact parseUintLoop_ok_value _ _ _ hp
        have hminus : ¬ c = '-' := fun e => hs (Or.inr e)
        have hplus : ¬ c = '+' := fun e => hs (Or.inl e)
        have hall := allDigits_of_digits (c :: cs) hd
        simp only [parseInt, hplus, hminus, or_self, if_false, hp] at h
        simp only [decimalValue, hplus, hminus, or_self, if_false, ne_eq, hall, and_self,
          not_false_eq_true, if_true, reduceCtorEq]
        split at h
        · cases h
        · split at h
          · cases h
          · cases h
            rw [hval]

theorem parseInt_error_of_not_decimal (s : GoString) (h : decimalValue s = none) :
    ∃ e, parseInt s = .error e := by
  cases hp : parseInt s with
  | error e => exact ⟨e, rfl⟩
  | ok v =>
    rw [decimalValue_of_parseInt s v hp] at h
    cases h

theorem decimalValue_nil : decimalValue [] = none := rfl

theorem decimalValue_ne_nil (s : GoString) (v : Int) (h : decimalValue s = some v) : s ≠ [] := by
  intro e
  rw [e, decimalValue_nil] at h
  cases h

theorem parseInt_nil : parseInt [] = .error .syntaxErr := rfl

theorem parseInt_ok_ne_nil (s : GoString) (v : Int) (h : parseInt s = .ok v) : s ≠ [] := by
  intro e
  rw [e, parseInt_nil] at h
  cases h

/-- A bad unit makes the loop body fail. -/
theorem parseRangeInfo_error_of_bad (size : Int) (u : GoString) (h : BadUnit size u) :
    ∃ e, parseRangeInfo (trimSpace u) size = .error e := by
  cases h with
  | noSeparator hn =>
    refine ⟨"invalid range", ?_⟩
    rw [parseRangeInfo_eq]
    simp [(index_neg_iff '-' _).mpr hn]
  | badStart a b hu ha hne hnd =>
    obtain ⟨e, he⟩ := parseInt_error_of_not_decimal _ hnd
    rw [hu, parseRangeInfo_append a b size ha]
    simp [parseBounds, hne, he]
  | badEnd a b hu ha hne hnd =>
    obtain ⟨e, he⟩ := parseInt_error_of_not_decimal _ hnd
    rw [hu, parseRangeInfo_append a b size ha]
    by_cases h1 : trimSpace a = []
    · simp [parseBounds, h1, he]
    · cases hp : parseInt (trimSpace a) with
      | error e2 => simp [parseBounds, h1, hp]
      | ok S =>
        by_cases h2 : S < 0
        · simp [parseBounds, h1, hp, h2]
        · by_cases h3 : S ≥ size
          · simp [parseBounds, h1, hp, h2, h3]
          · simp [parseBounds, h1, hp, h2, h3, hne, he]
  | noBound a b hu ha h1 h2 =>
    rw [hu, parseRangeInfo_append a b size ha]
    simp [parseBounds, h1, h2, parseInt_nil]
  | startBeyondSize a b S hu ha hS hle =>
    rw [hu, parseRangeInfo_append a b size ha]
    have hne := decimalValue_ne_nil _ _ hS
    cases hp : parseInt (trimSpace a) with
    | error e => simp [parseBounds, hne, hp]
    | ok S2 =>
      have hS2 : S2 = S := by
        have := decimalValue_of_parseInt _ _ hp
        rw [hS] at this
        cases this
        rfl
      subst hS2
      by_cases h2 : S2 < 0
      · simp [parseBounds, hne, hp, h2]
      · simp [parseBounds, hne, hp, h2, hle]
  | endBeforeStart a b S E hu ha hS hE hlt =>
    rw [hu, parseRangeInfo_append a b size ha]
    have hne := decimalValue_ne_nil _ _ hS
    have hne2 := decimalValue_ne_nil _ _ hE
    cases hp : parseInt (trimSpace a) with
    | error e => simp [parseBounds, hne, hp]
    | ok S2 =>
      have hS2 : S2 = S := by
        have := decimalValue_of_parseInt _ _ hp
        rw [hS] at this
        cases this
        rfl
      subst hS2
      by_cases h2 : S2 < 0
      · simp [parseBounds, hne, hp, h2]
      · by_cases h3 : S2 ≥ size
        · simp [parseBounds, hne, hp, h2, h3]
        · cases hq : parseInt (trimSpace b) with
          | error e => simp [parseBounds, hne, hp, h2, h3, hne2, hq]
          | ok E2 =>
            have hE2 : E2 = E := by
              have := decimalValue_of_parseInt _ _ hq
              rw [hE] at this
              cases this
              rfl
            subst hE2
            simp [parseBounds, hne, hp, h2, h3, hne2, hq, hlt]

/-! ## Lemmas on the multipart envelope -/

theorem byteLen_append (a b : GoString) : byteLen (a ++ b) = byteLen a + byteLen b := by
  simp [byteLen]

theorem byteLen_cons (c : Char) (a : GoString) : byteLen (c :: a) = c.utf8Size + byteLen a := by
  simp [byteLen]

theorem wrap64_add_wrap64_left (a b : Int) : wrap64 (wrap64 a + b) = wrap64 (a + b) := by
  unfold wrap64
  omega

theorem wrap64_add_wrap64_right (a b : Int) : wrap64 (a + wrap64 b) = wrap64 (a + b) := by
  unfold wrap64
  omega

/-- The bytes a part header takes depend on the boundary by its length only. -/
theorem byteLen_createPart (mw mw2 : Writer) (h : MIMEHeader)
    (hb : byteLen mw.boundary = byteLen mw2.boundary) (hl : mw.lastpart = mw2.lastpart) :
    byteLen (mw.CreatePart h).1 = byteLen (mw2.CreatePart h).1 := by
  simp only [Writer.CreatePart, hl]
  cases mw2.lastpart <;> simp [byteLen_cons, byteLen_append, hb]

theorem byteLen_close (mw mw2 : Writer) (hb : byteLen mw.boundary = byteLen mw2.boundary) :
    byteLen mw.Close = byteLen mw2.Close := by
  simp only [Writer.Close, byteLen_append, hb]

theorem envelopeLen_congr (contentType : GoString) (size : Int) (rs : List httpRange)
    (mw mw2 : Writer) (hb : byteLen mw.boundary = byteLen mw2.boundary)
    (hl : mw.lastpart = mw2.lastpart) :
    envelopeLen contentType size rs mw = envelopeLen contentType size rs mw2 := by
  induction rs generalizing mw mw2 with
  | nil => exact byteLen_close mw mw2 hb
  | cons ra rest ih =>
    simp only [envelopeLen]
    rw [byteLen_createPart mw mw2 _ hb hl]
    rw [ih (mw.CreatePart (ra.mimeHeader contentType size)).2
      (mw2.CreatePart (ra.mimeHeader contentType size)).2 hb rfl]

/-- The loop of `parseTotalRange` counts, up to `int64` overflow, the bytes of
the part headers and the lengths of the ranges. -/
theorem parseTotalRangeLoop_spec (contentType : GoString) (size : Int) (rs : List httpRange)
    (mw : Writer) (w encSize : Int) :
    wrap64 ((parseTotalRangeLoop contentType size rs mw w encSize).2.1 +
        byteLen (parseTotalRangeLoop contentType size rs mw w encSize).1.Close) =
      wrap64 (w + envelopeLen contentType size rs mw) ∧
    wrap64 (parseTotalRangeLoop contentType size rs mw w encSize).2.2 =
      wrap64 (encSize + payloadLen rs) := by
  induction rs generalizing mw w encSize with
  | nil => simp [parseTotalRangeLoop, envelopeLen, payloadLen]
  | cons ra rest ih =>
    simp only [parseTotalRangeLoop, envelopeLen, payloadLen]
    obtain ⟨h1, h2⟩ := ih (mw.CreatePart (ra.mimeHeader contentType size)).2
      (wrap64 (w + byteLen (mw.CreatePart (ra.mimeHeader contentType size)).1))
      (wrap64 (encSize + ra.length))
    rw [h1, h2, wrap64_add_wrap64_left, wrap64_add_wrap64_left]
    constructor
    · congr 1
      push_cast
      ring
    · congr 1
      ring

/-- The sizer returns, up to `int64` overflow, the bytes of the envelope plus
the lengths of the ranges. -/
theorem parseTotalRange_spec (rs : List httpRange) (contentType : GoString) (size : Int)
    (boundary : GoString) :
    parseTotalRange rs contentType size boundary =
      wrap64 (envelopeLen contentType size rs (NewWriter boundary) + payloadLen rs) := by
  obtain ⟨h1, h2⟩ := parseTotalRangeLoop_spec contentType size rs (NewWriter boundary) 0 0
  unfold parseTotalRange
  simp only []
  rw [wrap64_add_wrap64_right, ← wrap64_add_wrap64_left, h2, wrap64_add_wrap64_left,
    add_comm, ← wrap64_add_wrap64_left, h1, wrap64_add_wrap64_left]
  congr 1
  ring

theorem bodySize_append (a b : List Chunk) : bodySize (a ++ b) = bodySize a + bodySize b := by
  simp [bodySize]

/-- A copy of a non-negative number of bytes that returns no error has copied
them all. -/
theorem copyN_ok (f : File) (pos n : Int) (hn : 0 ≤ n) (h : (f.CopyN pos n).2 = none) :
    (f.CopyN pos n).1 = n := by
  unfold File.CopyN at h ⊢
  by_cases h0 : n ≤ 0
  · have : n = 0 := by omega
    subst this
    simp
  · cases hr : f.readFails with
    | some e =>
      have hne : ¬ (0 = n) := by omega
      simp [h0, hr, hne] at h
    | none =>
      simp only [h0, if_false, hr] at h ⊢
      by_cases h1 : min n (max ((f.length : Int) - pos) 0) = n
      · simp [h1]
      · have h2 : min n (max ((f.length : Int) - pos) 0) < n := by omega
        simp [h1, h2] at h

/-- A producer that ends without error has written the envelope and, for
ranges of non-negative length, all the bytes of the ranges. -/
theorem produceLoop_size (f : File) (contentType : GoString) (size : Int)
    (rs : List httpRange) (mw : Writer) (out : List Chunk)
    (hlen : ∀ r ∈ rs, 0 ≤ r.length)
    (hok : (produceLoop f contentType size rs mw out).2 = none) :
    (bodySize (produceLoop f contentType size rs mw out).1 : Int) =
      bodySize out + envelopeLen contentType size rs mw + payloadLen rs := by
  induction rs generalizing mw out with
  | nil => simp [produceLoop, envelopeLen, payloadLen, bodySize_append, bodySize, Chunk.size]
  | cons ra rest ih =>
    have hra : 0 ≤ ra.length := hlen ra (by simp)
    have hrest : ∀ r ∈ rest, 0 ≤ r.length := fun r hr => hlen r (by simp [hr])
    simp only [produceLoop] at hok ⊢
    cases hs : (f.SeekStart ra.start).2 with
    | some e => simp [hs] at hok
    | none =>
      simp only [hs] at hok ⊢
      cases hc : (f.CopyN ra.start ra.length).2 with
      | some e => simp [hc] at hok
      | none =>
        simp only [hc] at hok ⊢
        rw [ih _ _ hrest hok, copyN_ok f _ _ hra hc]
        simp only [bodySize_append, envelopeLen, payloadLen]
        simp only [bodySize, List.map_cons, List.map_nil, List.sum_cons, List.sum_nil,
          Chunk.size]
        push_cast
        rw [Int.toNat_of_nonneg hra]
        ring

/-! ## Lemmas on the ranges the parser returns -/

theorem parseInt_range (s : GoString) (v : Int) (h : parseInt s = .ok v) :
    -9223372036854775808 ≤ v ∧ v < 9223372036854775808 := by
  cases s with
  | nil => simp [parseInt] at h
  | cons c cs =>
    simp only [parseInt] at h
    split at h
    · cases h
    · rename_i un _
      by_cases hneg : c = '-'
      · simp only [hneg, not_true_eq_false, false_and, if_false, true_and, if_true] at h
        split at h
        · cases h
        · cases h
          omega
      · simp only [hneg, not_false_eq_true, true_and, false_and, if_false] at h
        split at h
        · cases h
        · cases h
          omega

/-- A range the loop body returns with a start that is not negative ends
within the resource. -/
theorem parseBounds_sum (a b : GoString) (size : Int) (r : httpRange) (h0 : 0 ≤ size)
    (h1 : size < 9223372036854775808) (h : parseBounds a b size = .ok r) (hs : 0 ≤ r.start) :
    0 ≤ r.start + r.length ∧ r.start + r.length ≤ size ∧
      -9223372036854775808 ≤ r.length ∧ r.start < 9223372036854775808 := by
  unfold parseBounds at h
  split at h
  · split at h
    · cases h
    · rename_i L hL
      obtain ⟨hL1, hL2⟩ := parseInt_range _ _ hL
      cases h
      simp only [wrap64] at hs ⊢
      split at hs <;> split <;> omega
  · split at h
    · cases h
    · rename_i S hS
      obtain ⟨hS1, hS2⟩ := parseInt_range _ _ hS
      split at h
      · cases h
      · split at h
        · cases h
        · split at h
          · cases h
            simp only [wrap64]
            omega
          · split at h
            · cases h
            · rename_i E hE
              obtain ⟨hE1, hE2⟩ := parseInt_range _ _ hE
              split at h
              · cases h
              · cases h
                simp only [wrap64]
                split <;> omega

theorem parseRangeInfo_sum (t : GoString) (size : Int) (r : httpRange) (h0 : 0 ≤ size)
    (h1 : size < 9223372036854775808) (h : parseRangeInfo t size = .ok r) (hs : 0 ≤ r.start) :
    0 ≤ r.start + r.length ∧ r.start + r.length ≤ size ∧
      -9223372036854775808 ≤ r.length ∧ r.start < 9223372036854775808 := by
  rw [parseRangeInfo_eq] at h
  split at h
  · cases h
  · exact parseBounds_sum _ _ size r h0 h1 h hs

/-- A property of every range the loop body returns holds for every range the
loop returns. -/
theorem parseRangeLoop_forall (P : httpRange → Prop) (size : Int)
    (hP : ∀ t r, parseRangeInfo t size = .ok r → P r) (us : List GoString)
    (acc : List httpRange) (hacc : ∀ r ∈ acc, P r) :
    ∀ r ∈ (parseRangeLoop size us acc).1, P r := by
  induction us generalizing acc with
  | nil => simpa [parseRangeLoop] using hacc
  | cons u rest ih =>
    simp only [parseRangeLoop]
    split
    · exact ih acc hacc
    · split
      · simp
      · rename_i r hr
        apply ih
        intro x hx
        rcases List.mem_append.mp hx with hx | hx
        · exact hacc x hx
        · simp only [List.mem_singleton] at hx
          subst hx
          exact hP _ _ hr

theorem parseHTTPRange_forall (P : httpRange → Prop) (size : Int)
    (hP : ∀ t r, parseRangeInfo t size = .ok r → P r) (header : GoString) :
    ∀ r ∈ (parseHTTPRange header size).1, P r := by
  unfold parseHTTPRange
  simp only []
  split
  · simp
  · exact parseRangeLoop_forall P size hP _ [] (by simp)

theorem dropWhile_concat_of_not (p : Char → Bool) (xs : GoString) (c : Char)
    (hc : p c = false) : (xs ++ [c]).dropWhile p = xs.dropWhile p ++ [c] := by
  induction xs with
  | nil => simp [List.dropWhile, hc]
  | cons x xs ih =>
    by_cases hx : p x = true
    · simp [List.dropWhile, hx, ih]
    · simp [List.dropWhile, hx]

theorem dropWhile_head (p : Char → Bool) (s : GoString) (c : Char) (rest : GoString)
    (h : s.dropWhile p = c :: rest) : p c = false := by
  induction s with
  | nil => simp at h
  | cons x xs ih =>
    by_cases hx : p x = true
    · simp only [List.dropWhile, hx] at h
      exact ih h
    · simp only [List.dropWhile, hx] at h
      cases h
      simpa using hx

/-- A trimmed string is empty or begins with a character that is not white
space. -/
theorem trimSpace_head (s : GoString) (c : Char) (rest : GoString)
    (h : trimSpace s = c :: rest) : isSpace c = false := by
  unfold trimSpace at h
  cases hd : s.dropWhile isSpace with
  | nil => simp [hd] at h
  | cons x xs =>
    have hx := dropWhile_head isSpace s x xs hd
    rw [hd, List.reverse_cons, dropWhile_concat_of_not isSpace _ x hx] at h
    simp only [List.reverse_append, List.reverse_cons, List.reverse_nil, List.nil_append,
      List.singleton_append] at h
    cases h
    exact hx

theorem trimSpace_cons_ne_nil (c : Char) (xs : GoString) (hc : isSpace c = false) :
    trimSpace (c :: xs) ≠ [] := by
  unfold trimSpace
  have hd : (c :: xs).dropWhile isSpace = c :: xs := by simp [List.dropWhile, hc]
  rw [hd, List.reverse_cons, dropWhile_concat_of_not isSpace _ c hc]
  simp

/-- A range that the loop body returns on a trimmed unit with a start lies
within the resource and is not empty; on a suffix unit whose length parses as
a non-negative integer `N` it is the last `min N size` bytes. -/
theorem parseRangeInfo_unit (t : GoString) (size : Int) (r : httpRange) (h0 : 0 ≤ size)
    (h1 : size < 9223372036854775808)
    (hhead : ∀ c rest, t = c :: rest → isSpace c = false)
    (h : parseRangeInfo t size = .ok r) :
    ((∀ b, t ≠ '-' :: b) → 0 ≤ r.start ∧ 0 < r.length ∧ r.start + r.length ≤ size) ∧
    (∀ b N, t = '-' :: b → parseInt (trimSpace b) = .ok N → 0 ≤ N →
      0 ≤ r.start ∧ 0 ≤ r.length ∧ r.start + r.length = size ∧ r.length = min N size) := by
  constructor
  · intro hstart
    cases t with
    | nil => simp [parseRangeInfo, index] at h
    | cons c rest =>
      have hc : c ≠ '-' := fun e => hstart rest (by rw [e])
      have hsp := hhead c rest rfl
      rw [parseRangeInfo_eq] at h
      split at h
      · cases h
      · rename_i hidx
        have hi : index '-' (c :: rest) = index '-' rest + 1 := by
          by_cases hr : index '-' rest < 0
          · simp [index, hc, hr] at hidx
          · simp [index, hc, hr]
        have hr0 : 0 ≤ index '-' rest := by
          by_contra hneg
          simp [index, hc, not_le.mp hneg] at hidx
        have hnat : (index '-' rest + 1).toNat = (index '-' rest).toNat + 1 := by omega
        rw [hi, hnat, List.take_succ_cons] at h
        have hne := trimSpace_cons_ne_nil c (rest.take (index '-' rest).toNat) hsp
        unfold parseBounds at h
        simp only [hne, if_false] at h
        split at h
        · cases h
        · rename_i S hS
          obtain ⟨hS1, hS2⟩ := parseInt_range _ _ hS
          split at h
          · cases h
          · split at h
            · cases h
            · split at h
              · cases h
                simp only [wrap64]
                omega
              · split at h
                · cases h
                · rename_i E hE
                  obtain ⟨hE1, hE2⟩ := parseInt_range _ _ hE
                  split at h
                  · cases h
                  · cases h
                    simp only [wrap64]
                    split <;> omega
  · intro b N ht hN hN0
    subst ht
    have := parseRangeInfo_append [] b size (by simp)
    simp only [List.nil_append] at this
    rw [this, trimSpace_nil] at h
    obtain ⟨hN1, hN2⟩ := parseInt_range _ _ hN
    simp only [parseBounds, if_true, hN] at h
    cases h
    simp only [wrap64]
    split <;> omega

/-- Every range the loop returns was in `acc` or is what the loop body returns
on a unit that is not empty after trimming. -/
theorem parseRangeLoop_origin (size : Int) (us : List GoString) (acc : List httpRange) :
    ∀ r ∈ (parseRangeLoop size us acc).1,
      r ∈ acc ∨ ∃ u ∈ us, trimSpace u ≠ [] ∧ parseRangeInfo (trimSpace u) size = .ok r := by
  induction us generalizing acc with
  | nil =>
    intro r hr
    exact Or.inl (by simpa [parseRangeLoop] using hr)
  | cons u rest ih =>
    intro r hr
    simp only [parseRangeLoop] at hr
    split at hr
    · rcases ih acc r hr with h | ⟨v, hv, hne, hp⟩
      · exact Or.inl h
      · exact Or.inr ⟨v, by simp [hv], hne, hp⟩
    · rename_i hne
      split at hr
      · simp at hr
      · rename_i r2 hr2
        rcases ih _ r hr with h | ⟨v, hv, hne2, hp⟩
        · rcases List.mem_append.mp h with h | h
          · exact Or.inl h
          · simp only [List.mem_singleton] at h
            subst h
            exact Or.inr ⟨u, by simp, hne, hr2⟩
        · exact Or.inr ⟨v, by simp [hv], hne2, hp⟩

/-- Every range the parser returns is what the loop body returns on a unit of
the header. -/
theorem parseHTTPRange_origin (header : GoString) (size : Int) :
    ∀ r ∈ (parseHTTPRange header size).1,
      ∃ t ∈ headerUnits header, parseRangeInfo t size = .ok r := by
  intro r hr
  unfold parseHTTPRange at hr
  simp only [] at hr
  split at hr
  · simp at hr
  · rcases parseRangeLoop_origin size _ [] r hr with h | ⟨u, hu, hne, hp⟩
    · simp at h
    · refine ⟨trimSpace u, ?_, hp⟩
      unfold headerUnits
      rw [List.mem_filter]
      exact ⟨List.mem_map_of_mem trimSpace hu, by simpa using hne⟩

theorem headerUnits_head (header t : GoString) (ht : t ∈ headerUnits header) :
    ∀ c rest, t = c :: rest → isSpace c = false := by
  unfold headerUnits at ht
  rw [List.mem_filter] at ht
  obtain ⟨u, _, hu⟩ := List.mem_map.mp ht.1
  intro c rest hc
  rw [← hu] at hc
  exact trimSpace_head u c rest hc

/-! ## Lemmas on the response writer -/

theorem writeHeader_sent (w : ResponseWriter) (c code : Nat) (h : w.status = some c) :
    w.WriteHeader code = w := by
  simp [ResponseWriter.WriteHeader, h]

theorem write_sent (w : ResponseWriter) (c n : Nat) (h : w.status = some c) :
    (w.Write n).status = some c ∧ (w.Write n).sent = w.sent := by
  simp [ResponseWriter.Write, writeHeader_sent w c 200 h, h]

theorem httpError_sent (w : ResponseWriter) (c code : Nat) (msg : String)
    (h : w.status = some c) :
    (httpError w msg code).status = some c ∧ (httpError w msg code).sent = w.sent := by
  simp [httpError, ResponseWriter.Write, ResponseWriter.WriteHeader, ResponseWriter.Set, h]

/-- The copy of the body changes neither the status nor the headers that were
sent before it. -/
theorem sendBody_sent (w : ResponseWriter) (c avail : Nat) (srcErr : Option String)
    (sendSize : Int) (h : w.status = some c) :
    (sendBody w avail srcErr sendSize).status = some c ∧
      (sendBody w avail srcErr sendSize).sent = w.sent := by
  unfold sendBody
  simp only []
  by_cases hn : min sendSize.toNat avail = 0
  · simp only [hn, if_true]
    split
    · exact ⟨h, rfl⟩
    · exact httpError_sent w c 405 _ h
  · simp only [hn, if_false]
    obtain ⟨h1, h2⟩ := write_sent w c (min sendSize.toNat avail) h
    split
    · exact ⟨h1, h2⟩
    · obtain ⟨h3, h4⟩ := httpError_sent _ c 405 (srcErr.getD "EOF") h1
      exact ⟨h3, h4.trans h2⟩

theorem seekStart_ok (f : File) (offset : Int) (h : (f.SeekStart offset).2 = none) :
    0 ≤ offset := by
  unfold File.SeekStart at h
  cases hs : f.seekFails with
  | some e => simp [hs] at h
  | none =>
    simp only [hs] at h
    by_contra hneg
    simp [not_le.mp hneg] at h

theorem parseSize_nonneg (f : File) (size : Int) (h : parseSize f = (size, none)) :
    0 ≤ size := by
  unfold parseSize File.SeekEnd at h
  cases hsf : f.seekFails with
  | some e => simp [hsf] at h
  | none =>
    simp only [hsf] at h
    split at h
    · cases h
    · cases h
      exact Int.ofNat_nonneg _

theorem serveGet_none (f : File) (range contentType boundary boundary2 : GoString)
    (size : Int) (hstat : f.statFails = none) (hdir : f.isDir = false)
    (hsize : parseSize f = (size, none)) (hparse : parseHTTPRange range size = ([], none)) :
    serveGet ResponseWriter.new (.ok f) range contentType boundary boundary2 =
      sendBody (headNone size) (f.avail 0) f.readFails size := by
  simp [serveGet, hstat, hdir, hsize, hparse, headNone]

theorem serveGet_one (f : File) (range contentType boundary boundary2 : GoString)
    (size : Int) (ra : httpRange) (hstat : f.statFails = none) (hdir : f.isDir = false)
    (hsize : parseSize f = (size, none)) (hparse : parseHTTPRange range size = ([ra], none))
    (hseek : (f.SeekStart ra.start).2 = none) :
    serveGet ResponseWriter.new (.ok f) range contentType boundary boundary2 =
      sendBody (headOne ra size) (f.avail ra.start) f.readFails ra.length := by
  simp [serveGet, hstat, hdir, hsize, hparse, hseek, headOne]

theorem serveGet_multi (f : File) (range contentType boundary boundary2 : GoString)
    (size : Int) (ra rb : httpRange) (rest : List httpRange) (hstat : f.statFails = none)
    (hdir : f.isDir = false) (hsize : parseSize f = (size, none))
    (hparse : parseHTTPRange range size = (ra :: rb :: rest, none)) :
    serveGet ResponseWriter.new (.ok f) range contentType boundary boundary2 =
      sendBody
        (headMulti boundary (parseTotalRange (ra :: rb :: rest) contentType size boundary2))
        (bodySize (produce f (ra :: rb :: rest) contentType size boundary).1)
        (produce f (ra :: rb :: rest) contentType size boundary).2
        (parseTotalRange (ra :: rb :: rest) contentType size boundary2) := by
  simp [serveGet, hstat, hdir, hsize, hparse, headMulti]

theorem headNone_sent (size : Int) :
    (headNone size).status = some 200 ∧
      (headNone size).sent =
        [("Content-Length".toList, formatInt size), ("Accept-Ranges".toList, "bytes".toList)] := by
  simp [headNone, ResponseWriter.WriteHeader, ResponseWriter.Set, ResponseWriter.new]

theorem headOne_sent (ra : httpRange) (size : Int) :
    (headOne ra size).status = some 206 ∧
      (headOne ra size).sent =
        [("Content-Length".toList, formatInt ra.length),
          ("Accept-Ranges".toList, "bytes".toList),
          ("Content-Range".toList, ra.contentRange size)] := by
  simp [headOne, ResponseWriter.WriteHeader, ResponseWriter.Set, ResponseWriter.new]

theorem headMulti_sent (boundary : GoString) (sendSize : Int) :
    (headMulti boundary sendSize).status = some 206 ∧
      (headMulti boundary sendSize).sent =
        [("Content-Length".toList, formatInt sendSize),
          ("Accept-Ranges".toList, "bytes".toList),
          ("Content-Type".toList, "multipart/byteranges; boundary=".toList ++ boundary)] := by
  simp [headMulti, ResponseWriter.WriteHeader, ResponseWriter.Set, ResponseWriter.new]

/-- The `Content-Range` value of a range that starts at a non-negative
position and ends within the resource, in plain arithmetic. -/
theorem contentRange_eq (r : httpRange) (size : Int) (h0 : 0 ≤ r.start + r.length)
    (h1 : r.start + r.length ≤ size) (h2 : size < 9223372036854775808) :
    r.contentRange size = "bytes ".toList ++ formatInt r.start ++ '-' ::
      formatInt (r.start + r.length - 1) ++ '/' :: formatInt size := by
  unfold httpRange.contentRange
  rw [wrap64_of_range (r.start + r.length) (by omega) (by omega),
    wrap64_of_range (r.start + r.length - 1) (by omega) (by omega)]

/-! ## The range parser: results -/

/-- C2: for `0 ≤ S < size` and `S ≤ E` within `int64`, the header `bytes=S-E`
parses without error to the single range `{S, min(E, size-1) - S + 1}` and the
header `bytes=S-` to the single range `{S, size - S}`; in particular the header
`bytes=<start>-<start+length-1>` of a range with `0 ≤ start`, `0 < length` and
`start + length ≤ size` parses to exactly that range. -/
theorem parseHTTPRange_start_end (size S E : Int) (hS : 0 ≤ S) (hSs : S < size)
    (hSE : S ≤ E) (hE : E < 9223372036854775808) (hsize : size < 9223372036854775808) :
    parseHTTPRange (schemeBytes ++ (formatInt S ++ '-' :: formatInt E)) size =
        ([{ start := S, length := min E (size - 1) - S + 1 }], none) ∧
      parseHTTPRange (schemeBytes ++ (formatInt S ++ ['-'])) size =
        ([{ start := S, length := size - S }], none) ∧
      ∀ start length : Int, 0 ≤ start → 0 < length → start + length ≤ size →
        parseHTTPRange
            (schemeBytes ++ (formatInt start ++ '-' :: formatInt (start + length - 1))) size =
          ([{ start := start, length := length }], none) := by
  refine ⟨parse_start_end size S E hS hSs hSE hE hsize, parse_start_open size S hS hSs hsize, ?_⟩
  intro start length h0 h1 h2
  have := parse_start_end size start (start + length - 1) h0 (by omega) (by omega) (by omega)
    hsize
  rw [this]
  have hlen : min (start + length - 1) (size - 1) - start + 1 = length := by omega
  rw [hlen]

/-- C2 at `bytes=500-1999` and `bytes=500-` on a resource of 1000 bytes. -/
theorem parseHTTPRange_start_end_witness :
    parseHTTPRange (schemeBytes ++ (formatInt 500 ++ '-' :: formatInt 1999)) 1000 =
        ([{ start := 500, length := min 1999 (1000 - 1) - 500 + 1 }], none) ∧
      parseHTTPRange (schemeBytes ++ (formatInt 500 ++ ['-'])) 1000 =
        ([{ start := 500, length := 1000 - 500 }], none) ∧
      ∀ start length : Int, 0 ≤ start → 0 < length → start + length ≤ 1000 →
        parseHTTPRange
            (schemeBytes ++ (formatInt start ++ '-' :: formatInt (start + length - 1))) 1000 =
          ([{ start := start, length := length }], none) :=
  parseHTTPRange_start_end 1000 500 1999 (by decide) (by decide) (by decide) (by decide)
    (by decide)

/-- The header `bytes=--5` on a resource of 1000 bytes is accepted, and the
range returned for it has a negative length and a start beyond the resource:
the suffix length `-5` is not rejected, where a negative start is. -/
theorem parseHTTPRange_negative_suffix :
    parseHTTPRange "bytes=--5".toList 1000 = ([{ start := 1005, length := -5 }], none) := by
  decide

/-- C3, as stated, fails: the header `bytes=-0,--5` on a resource of 1000 bytes
parses without error to a range of length zero and a range of negative length,
so not every returned range has `length > 0`, and the suffix `--5`, whose
length parses as a negative integer, is accepted. -/
theorem parseHTTPRange_suffix_lengths :
    parseHTTPRange "bytes=-0,--5".toList 1000 =
        ([{ start := 1000, length := 0 }, { start := 1005, length := -5 }], none) ∧
      ¬ ∀ r ∈ (parseHTTPRange "bytes=-0,--5".toList 1000).1,
        0 ≤ r.start ∧ 0 < r.length ∧ r.start + r.length ≤ 1000 := by
  have h : parseHTTPRange "bytes=-0,--5".toList 1000 =
      ([{ start := 1000, length := 0 }, { start := 1005, length := -5 }], none) := by
    decide
  rw [h]
  refine ⟨rfl, ?_⟩
  intro hall
  have := (hall { start := 1000, length := 0 } (by simp)).2.1
  simp at this

/-- C3, amended: for every header and every resource size `0 ≤ size` within
`int64`, every range `parseHTTPRange` returns is the range of one unit of the
header; the range of a unit with a start (`S-` or `S-E`, a unit that does not
begin with `-`) has `start ≥ 0`, `length > 0` and `start + length ≤ size`; and
the range of a suffix unit `-N` whose `N` parses as a non-negative integer has
`start ≥ 0`, `length = min(N, size) ≥ 0` and `start + length = size`. -/
theorem parseHTTPRange_unit_ranges (header : GoString) (size : Int) (h0 : 0 ≤ size)
    (h1 : size < 9223372036854775808) :
    ∀ r ∈ (parseHTTPRange header size).1, ∃ t ∈ headerUnits header,
      parseRangeInfo t size = .ok r ∧
      ((∀ b, t ≠ '-' :: b) → 0 ≤ r.start ∧ 0 < r.length ∧ r.start + r.length ≤ size) ∧
      (∀ b N, t = '-' :: b → parseInt (trimSpace b) = .ok N → 0 ≤ N →
        0 ≤ r.start ∧ 0 ≤ r.length ∧ r.start + r.length = size ∧ r.length = min N size) := by
  intro r hr
  obtain ⟨t, ht, hp⟩ := parseHTTPRange_origin header size r hr
  exact ⟨t, ht, hp,
    parseRangeInfo_unit t size r h0 h1 (headerUnits_head header t ht) hp⟩

/-- C3, amended, at the range `{1000, 0}` that `bytes=0-99,-0,-300` yields for
its unit `-0` on a resource of 1000 bytes. -/
theorem parseHTTPRange_unit_ranges_witness :
    ∃ t ∈ headerUnits "bytes=0-99,-0,-300".toList,
      parseRangeInfo t 1000 = .ok { start := 1000, length := 0 } ∧
      ((∀ b, t ≠ '-' :: b) →
        0 ≤ ({ start := 1000, length := 0 } : httpRange).start ∧
        0 < ({ start := 1000, length := 0 } : httpRange).length ∧
        ({ start := 1000, length := 0 } : httpRange).start +
          ({ start := 1000, length := 0 } : httpRange).length ≤ 1000) ∧
      (∀ b N, t = '-' :: b → parseInt (trimSpace b) = .ok N → 0 ≤ N →
        0 ≤ ({ start := 1000, length := 0 } : httpRange).start ∧
        0 ≤ ({ start := 1000, length := 0 } : httpRange).length ∧
        ({ start := 1000, length := 0 } : httpRange).start +
          ({ start := 1000, length := 0 } : httpRange).length = 1000 ∧
        ({ start := 1000, length := 0 } : httpRange).length = min N 1000) :=
  parseHTTPRange_unit_ranges "bytes=0-99,-0,-300".toList 1000 (by decide) (by decide)
    { start := 1000, length := 0 } (by decide)

/-- C4: the header `items=0-99`, which is not of the `bytes=` scheme, is parsed
as a byte range on a resource of 1000 bytes instead of being a full-content
request. -/
theorem parseHTTPRange_other_scheme :
    parseHTTPRange "items=0-99".toList 1000 = ([{ start := 0, length := 100 }], none) := by
  decide

/-- C5: for a resource of size `S ≥ 0` and `0 ≤ N` within `int64`, the header
`bytes=-N` parses without error to the single range
`{S - min(N, S), min(N, S)}`. -/
theorem parseHTTPRange_suffix (S N : Int) (hS0 : 0 ≤ S) (hN : 0 ≤ N)
    (hN1 : N < 9223372036854775808) (hS1 : S < 9223372036854775808) :
    parseHTTPRange (schemeBytes ++ ('-' :: formatInt N)) S =
      ([{ start := S - min N S, length := min N S }], none) :=
  parse_suffix S N hS0 hN hN1 hS1

/-- C5 at `bytes=-300` on a resource of 1000 bytes. -/
theorem parseHTTPRange_suffix_witness :
    parseHTTPRange (schemeBytes ++ ('-' :: formatInt 300)) 1000 =
      ([{ start := 1000 - min 300 1000, length := min 300 1000 }], none) :=
  parseHTTPRange_suffix 1000 300 (by decide) (by decide) (by decide) (by decide)

/-- C6: the parse is all-or-nothing. For a header `bytes=u1,...,un` whose units
contain no `=` and no `,`, if some unit that is not empty after trimming is a
bad unit (no `-`; a bound that is not a decimal integer; a start that is a
decimal integer `S` of any size with `S ≥ size`; or an end that is a decimal
integer `E` of any size with `E < S`), the parser returns an error and no range
at all, whatever the other units are and wherever the bad unit stands. -/
theorem parseHTTPRange_all_or_nothing (size : Int) (us : List GoString)
    (hus : ∀ u ∈ us, '=' ∉ u ∧ ',' ∉ u)
    (hbad : ∃ u ∈ us, trimSpace u ≠ [] ∧ BadUnit size u) :
    (parseHTTPRange (schemeBytes ++ joinUnits us) size).1 = [] ∧
      (parseHTTPRange (schemeBytes ++ joinUnits us) size).2 ≠ none := by
  obtain ⟨u, hu, hne, hb⟩ := hbad
  have huss : us ≠ [] := by
    intro e
    simp [e] at hu
  rw [parseHTTPRange_joinUnits size us hus]
  simp only [huss, if_false]
  obtain ⟨e, he⟩ := parseRangeLoop_error size us []
    ⟨u, hu, hne, parseRangeInfo_error_of_bad size u hb⟩
  rw [he]
  simp

/-- C6 at `bytes=0-99,2000-,200-299` on a resource of 1000 bytes, where the
unit `2000-` starts beyond the resource, and at
`bytes=0-99,99999999999999999999-`, where the start is beyond `int64` too. -/
theorem parseHTTPRange_all_or_nothing_witness :
    ((parseHTTPRange
        (schemeBytes ++ joinUnits ["0-99".toList, "2000-".toList, "200-299".toList]) 1000).1 = []
      ∧ (parseHTTPRange
        (schemeBytes ++ joinUnits ["0-99".toList, "2000-".toList, "200-299".toList]) 1000).2
          ≠ none) ∧
    ((parseHTTPRange
        (schemeBytes ++ joinUnits ["0-99".toList, "99999999999999999999-".toList]) 1000).1 = []
      ∧ (parseHTTPRange
        (schemeBytes ++ joinUnits ["0-99".toList, "99999999999999999999-".toList]) 1000).2
          ≠ none) :=
  ⟨parseHTTPRange_all_or_nothing 1000 ["0-99".toList, "2000-".toList, "200-299".toList]
      (by decide)
      ⟨"2000-".toList, by decide, by decide,
        BadUnit.startBeyondSize "2000".toList [] 2000 (by decide) (by decide) rfl
          (by decide)⟩,
    parseHTTPRange_all_or_nothing 1000 ["0-99".toList, "99999999999999999999-".toList]
      (by decide)
      ⟨"99999999999999999999-".toList, by decide, by decide,
        BadUnit.startBeyondSize "99999999999999999999".toList [] 99999999999999999999
          (by decide) (by decide) rfl (by decide)⟩⟩

/-- C7: the parser keeps the order of the header and neither sorts, merges nor
removes duplicates. For a header `bytes=u1,...,un` whose units contain no `=`
and no `,` and each parse without error on their own, the result is the
concatenation, in header order, of the results of the units on their own, and
every unit that is not empty after trimming contributes exactly one range. -/
theorem parseHTTPRange_keeps_order (size : Int) (us : List GoString)
    (hus : ∀ u ∈ us, '=' ∉ u ∧ ',' ∉ u)
    (hok : ∀ u ∈ us, (parseHTTPRange (schemeBytes ++ u) size).2 = none) :
    parseHTTPRange (schemeBytes ++ joinUnits us) size =
        (us.flatMap (fun u => (parseHTTPRange (schemeBytes ++ u) size).1), none) ∧
      ∀ u ∈ us, trimSpace u ≠ [] →
        ∃ r, (parseHTTPRange (schemeBytes ++ u) size).1 = [r] := by
  constructor
  · rw [parseHTTPRange_joinUnits size us hus]
    by_cases hne : us = []
    · subst hne
      simp [parseRangeLoop, trimSpace]
    · simp only [hne, if_false]
      rw [parseRangeLoop_ok size us [] hok hus]
      simp
  · intro u hu hne
    have h := hok u hu
    rw [parseHTTPRange_unit u size (hus u hu).1 (hus u hu).2] at h ⊢
    cases hp : parseRangeInfo (trimSpace u) size with
    | error e => simp [hne, hp] at h
    | ok r => exact ⟨r, by simp [hne]⟩

/-- C7 at `bytes=200-299,0-99,200-299` on a resource of 1000 bytes: the ranges
come back in header order, the repeated one twice. -/
theorem parseHTTPRange_keeps_order_witness :
    parseHTTPRange
        (schemeBytes ++ joinUnits ["200-299".toList, "0-99".toList, "200-299".toList]) 1000 =
      ([{ start := 200, length := 100 }, { start := 0, length := 100 },
        { start := 200, length := 100 }], none) :=
  (parseHTTPRange_keeps_order 1000 ["200-299".toList, "0-99".toList, "200-299".toList]
    (by decide) (by decide)).1.trans (by decide)

/-! ## The multipart envelope and the response: results -/

/-- The sizer agrees with the producer on ranges of non-negative length: for
every list of such ranges, every content type and every resource size, the
value `parseTotalRange` returns equals the number of bytes the multi-range
producer of `serveGet` writes for the same ranges (boundary lines, part
headers, empty lines, the `length` bytes of every range and the closing
boundary), when the boundaries of the two multipart writers have the same
length, every seek and read of the producer succeeds and the number of bytes
fits `int64`. -/
theorem parseTotalRange_eq_written (f : File) (ranges : List httpRange)
    (contentType : GoString) (size : Int) (boundary boundary2 : GoString)
    (hb : byteLen boundary = byteLen boundary2) (hlen : ∀ r ∈ ranges, 0 ≤ r.length)
    (hok : (produce f ranges contentType size boundary).2 = none)
    (hfit : (bodySize (produce f ranges contentType size boundary).1 : Int) <
      9223372036854775808) :
    parseTotalRange ranges contentType size boundary2 =
      bodySize (produce f ranges contentType size boundary).1 := by
  have hsize := produceLoop_size f contentType size ranges (NewWriter boundary) [] hlen hok
  have hcong := envelopeLen_congr contentType size ranges (NewWriter boundary)
    (NewWriter boundary2) hb rfl
  have h0 : bodySize ([] : List Chunk) = 0 := rfl
  rw [h0] at hsize
  simp only [Nat.cast_zero, zero_add] at hsize
  unfold produce at hfit ⊢
  have hnonneg : (0 : Int) ≤
      bodySize (produceLoop f contentType size ranges (NewWriter boundary) []).1 :=
    Int.ofNat_nonneg _
  rw [parseTotalRange_spec, ← hcong, hsize]
  rw [hsize] at hfit hnonneg
  exact wrap64_of_range _ (by omega) hfit

/-- The sizer and the producer at the ranges of `bytes=0-99,200-299` on a file
of 1000 bytes of type `text/plain`: they agree, on 389 bytes. -/
theorem parseTotalRange_eq_written_witness :
    parseTotalRange [{ start := 0, length := 100 }, { start := 200, length := 100 }]
        "text/plain".toList 1000 "0123456789abcdef".toList =
      bodySize (produce exampleFile
        [{ start := 0, length := 100 }, { start := 200, length := 100 }]
        "text/plain".toList 1000 "fedcba9876543210".toList).1 ∧
    bodySize (produce exampleFile
        [{ start := 0, length := 100 }, { start := 200, length := 100 }]
        "text/plain".toList 1000 "fedcba9876543210".toList).1 = 389 :=
  ⟨parseTotalRange_eq_written exampleFile
      [{ start := 0, length := 100 }, { start := 200, length := 100 }]
      "text/plain".toList 1000 "fedcba9876543210".toList "0123456789abcdef".toList
      (by decide) (by decide) (by decide) (by decide),
    by decide⟩

set_option maxRecDepth 8000 in
/-- C1: the header `bytes=--5,0-99` on a file of 1000 bytes of type
`text/plain; charset=utf-8` parses without error to the ranges `{1005, -5}` and
`{0, 100}`; the producer of `serveGet` ends without error and writes 452
bytes, while `parseTotalRange` returns 447 for boundaries of the same length,
and `serveGet` sends `Content-Length: 447`: the sizer adds the negative
length, for which the producer copies nothing. -/
theorem parseTotalRange_negative_length :
    parseHTTPRange "bytes=--5,0-99".toList 1000 =
        ([{ start := 1005, length := -5 }, { start := 0, length := 100 }], none) ∧
      byteLen exampleBoundary = byteLen exampleBoundary2 ∧
      (produce exampleFile [{ start := 1005, length := -5 }, { start := 0, length := 100 }]
        "text/plain; charset=utf-8".toList 1000 exampleBoundary).2 = none ∧
      bodySize (produce exampleFile
        [{ start := 1005, length := -5 }, { start := 0, length := 100 }]
        "text/plain; charset=utf-8".toList 1000 exampleBoundary).1 = 452 ∧
      parseTotalRange [{ start := 1005, length := -5 }, { start := 0, length := 100 }]
        "text/plain; charset=utf-8".toList 1000 exampleBoundary2 = 447 ∧
      (serveGet ResponseWriter.new (.ok exampleFile) "bytes=--5,0-99".toList
        "text/plain; charset=utf-8".toList exampleBoundary exampleBoundary2).sentHeader
          "Content-Length".toList = some "447".toList := by
  refine ⟨by decide, by decide, by decide, by decide, by decide, by decide⟩

/-- C8: a GET on a regular file of `size` bytes whose open, stat, size probe
and seeks succeed and whose `Range` header parses to the ranges `rs` is
answered by the number of ranges. No range: status 200, `Content-Length` the
size, no `Content-Range`. One range `r`: status 206, `Content-Length` the
length of `r`, `Content-Range: bytes <start>-<start+length-1>/<size>`. Two
ranges or more: status 206 and a `multipart/byteranges` content type with the
boundary of the body. `Accept-Ranges: bytes` is sent in all three cases. -/
theorem serveGet_shape (f : File) (range contentType boundary boundary2 : GoString)
    (size : Int) (rs : List httpRange)
    (hstat : f.statFails = none) (hdir : f.isDir = false)
    (hsize : parseSize f = (size, none)) (hfit : size < 9223372036854775808)
    (hparse : parseHTTPRange range size = (rs, none))
    (hseek : ∀ r ∈ rs, (f.SeekStart r.start).2 = none) :
    ((serveGet ResponseWriter.new (.ok f) range contentType boundary boundary2).sentHeader
        "Accept-Ranges".toList = some "bytes".toList) ∧
    (rs = [] →
      (serveGet ResponseWriter.new (.ok f) range contentType boundary boundary2).status =
          some 200 ∧
        (serveGet ResponseWriter.new (.ok f) range contentType boundary boundary2).sentHeader
          "Content-Length".toList = some (formatInt size) ∧
        (serveGet ResponseWriter.new (.ok f) range contentType boundary boundary2).sentHeader
          "Content-Range".toList = none) ∧
    (∀ r, rs = [r] →
      (serveGet ResponseWriter.new (.ok f) range contentType boundary boundary2).status =
          some 206 ∧
        (serveGet ResponseWriter.new (.ok f) range contentType boundary boundary2).sentHeader
          "Content-Length".toList = some (formatInt r.length) ∧
        (serveGet ResponseWriter.new (.ok f) range contentType boundary boundary2).sentHeader
          "Content-Range".toList = some ("bytes ".toList ++ formatInt r.start ++ '-' ::
            formatInt (r.start + r.length - 1) ++ '/' :: formatInt size)) ∧
    (2 ≤ rs.length →
      (serveGet ResponseWriter.new (.ok f) range contentType boundary boundary2).status =
          some 206 ∧
        (serveGet ResponseWriter.new (.ok f) range contentType boundary boundary2).sentHeader
          "Content-Type".toList = some ("multipart/byteranges; boundary=".toList ++ boundary) ∧
        (serveGet ResponseWriter.new (.ok f) range contentType boundary boundary2).sentHeader
          "Content-Length".toList =
            some (formatInt (parseTotalRange rs contentType size boundary2))) := by
  have hsize0 := parseSize_nonneg f size hsize
  match rs, hparse, hseek with
  | [], hparse, _ =>
    rw [serveGet_none f range contentType boundary boundary2 size hstat hdir hsize hparse]
    obtain ⟨h1, h2⟩ := headNone_sent size
    obtain ⟨h3, h4⟩ := sendBody_sent (headNone size) 200 (f.avail 0) f.readFails size h1
    simp only [ResponseWriter.sentHeader, h3, h4, h2]
    refine ⟨?_, ?_, ?_, ?_⟩
    · simp [List.lookup]
    · intro _
      simp [List.lookup]
    · intro r hr
      cases hr
    · intro h
      simp at h
  | [ra], hparse, hseek =>
    have hs := hseek ra (by simp)
    have hstart := seekStart_ok f ra.start hs
    have hmem : ra ∈ (parseHTTPRange range size).1 := by simp [hparse]
    obtain ⟨hsum0, hsum1, _, _⟩ := parseHTTPRange_forall
      (fun r => 0 ≤ r.start → 0 ≤ r.start + r.length ∧ r.start + r.length ≤ size ∧
        -9223372036854775808 ≤ r.length ∧ r.start < 9223372036854775808) size
      (fun t r h => parseRangeInfo_sum t size r hsize0 hfit h) range ra hmem hstart
    rw [serveGet_one f range contentType boundary boundary2 size ra hstat hdir hsize hparse hs]
    obtain ⟨h1, h2⟩ := headOne_sent ra size
    obtain ⟨h3, h4⟩ := sendBody_sent (headOne ra size) 206 (f.avail ra.start) f.readFails
      ra.length h1
    simp only [ResponseWriter.sentHeader, h3, h4, h2]
    refine ⟨?_, ?_, ?_, ?_⟩
    · simp [List.lookup]
    · intro h
      cases h
    · intro r hr
      cases hr
      rw [← contentRange_eq ra size hsum0 hsum1 hfit]
      simp [List.lookup]
    · intro h
      simp at h
  | ra :: rb :: rest, hparse, _ =>
    rw [serveGet_multi f range contentType boundary boundary2 size ra rb rest hstat hdir hsize
      hparse]
    obtain ⟨h1, h2⟩ := headMulti_sent boundary
      (parseTotalRange (ra :: rb :: rest) contentType size boundary2)
    obtain ⟨h3, h4⟩ := sendBody_sent (headMulti boundary
      (parseTotalRange (ra :: rb :: rest) contentType size boundary2)) 206
      (bodySize (produce f (ra :: rb :: rest) contentType size boundary).1)
      (produce f (ra :: rb :: rest) contentType size boundary).2
      (parseTotalRange (ra :: rb :: rest) contentType size boundary2) h1
    simp only [ResponseWriter.sentHeader, h3, h4, h2]
    refine ⟨?_, ?_, ?_, ?_⟩
    · simp [List.lookup]
    · intro h
      cases h
    · intro r hr
      cases hr
    · intro _
      simp [List.lookup]

/-- C8 at `bytes=500-999` on a file of 1000 bytes: status 206 and
`Content-Range: bytes 500-999/1000`. -/
theorem serveGet_shape_witness :
    (serveGet ResponseWriter.new (.ok exampleFile) "bytes=500-999".toList "text/plain".toList
        "0123456789abcdef".toList "fedcba9876543210".toList).status = some 206 ∧
      (serveGet ResponseWriter.new (.ok exampleFile) "bytes=500-999".toList "text/plain".toList
        "0123456789abcdef".toList "fedcba9876543210".toList).sentHeader
          "Content-Length".toList = some "500".toList ∧
      (serveGet ResponseWriter.new (.ok exampleFile) "bytes=500-999".toList "text/plain".toList
        "0123456789abcdef".toList "fedcba9876543210".toList).sentHeader
          "Content-Range".toList = some "bytes 500-999/1000".toList :=
  (serveGet_shape exampleFile "bytes=500-999".toList "text/plain".toList
    "0123456789abcdef".toList "fedcba9876543210".toList 1000 [{ start := 500, length := 500 }]
    (by decide) (by decide) (by decide) (by decide) (by decide) (by decide)).2.2.1
      { start := 500, length := 500 } rfl

/-! ## The lock of `servePut` -/

theorem filter_ne_of_not_mem (held : List (GoString × LockDetails)) (token : GoString)
    (h : token ∉ held.map Prod.fst) : held.filter (fun l => l.1 ≠ token) = held := by
  rw [List.filter_eq_self]
  intro l hl
  have : l.1 ≠ token := fun e => h (by rw [← e]; exact List.mem_map_of_mem Prod.fst hl)
  simpa using this

theorem formatUint_ne_nil (n : Nat) : formatUint n ≠ [] := (formatUint_spec n).1

theorem create_ok (ls : LockSystem) (details : LockDetails)
    (h : ls.canCreate ls.held details = true) : (ls.Create details).1.2 = none := by
  simp [LockSystem.Create, h]

/-- The deferred unlock after a successful `Create` gives back the locks that
were held before the `Create`. -/
theorem deferUnlock_create (ls : LockSystem) (details : LockDetails)
    (hcan : ls.canCreate ls.held details = true)
    (hfresh : formatUint (ls.gen + 1) ∉ ls.tokens) :
    (ls.Create details).1 = (formatUint (ls.gen + 1), none) ∧
      (deferUnlock (ls.Create details).2 (ls.Create details).1.1).held = ls.held ∧
      (deferUnlock (ls.Create details).2 (ls.Create details).1.1).canCreate = ls.canCreate ∧
      (deferUnlock (ls.Create details).2 (ls.Create details).1.1).gen = ls.gen + 1 := by
  have hf := filter_ne_of_not_mem ls.held _ hfresh
  have hne := formatUint_ne_nil (ls.gen + 1)
  simp only [LockSystem.Create, hcan, if_true, deferUnlock, hne, ne_eq, not_false_eq_true,
    LockSystem.Unlock, LockSystem.tokens, hf, List.map_cons, List.mem_cons, true_or,
    List.filter_cons, not_true_eq_false, decide_False, and_self, true_and]
  simp [hf]

/-- C9: `servePut` releases its lock on every exit path. On a lock system
whose next token is not already held, for every path and every outcome of the
open and of the copy, the locks held after `servePut` are the locks held
before it, so the token of the request is not left held, and a lock on the
same path can be created again whenever it could be created before. The
status is 404 when the open fails, 405 when the copy fails and 201 on success.
When the lock cannot be created the status is 412 and the lock system is
unchanged: no token is added and none is released. -/
theorem servePut_releases_lock (ls : LockSystem) (reqPath : GoString)
    (openFile copy : Option String) (hfresh : formatUint (ls.gen + 1) ∉ ls.tokens) :
    (servePut ResponseWriter.new ls reqPath openFile copy).2.held = ls.held ∧
    formatUint (ls.gen + 1) ∉ (servePut ResponseWriter.new ls reqPath openFile copy).2.tokens ∧
    (ls.canCreate ls.held (putDetails reqPath) = true →
      (servePut ResponseWriter.new ls reqPath openFile copy).1.status =
          some (putStatus openFile copy) ∧
        ((servePut ResponseWriter.new ls reqPath openFile copy).2.Create
          (putDetails reqPath)).1.2 = none) ∧
    (ls.canCreate ls.held (putDetails reqPath) = false →
      (servePut ResponseWriter.new ls reqPath openFile copy).1.status = some 412 ∧
        (servePut ResponseWriter.new ls reqPath openFile copy).2 = ls) := by
  by_cases hcan : ls.canCreate ls.held (putDetails reqPath) = true
  · obtain ⟨h1, h2, h3, h4⟩ := deferUnlock_create ls (putDetails reqPath) hcan hfresh
    have hput : servePut ResponseWriter.new ls reqPath openFile copy =
        (match openFile, copy with
          | some e, _ => httpError ResponseWriter.new e 404
          | none, some e => httpError ResponseWriter.new e 405
          | none, none => ResponseWriter.new.WriteHeader 201,
         deferUnlock (ls.Create (putDetails reqPath)).2 (ls.Create (putDetails reqPath)).1.1) := by
      unfold servePut
      have hc : ls.Create { root := reqPath, duration := -1, zeroDepth := true } =
          ((formatUint (ls.gen + 1), none), (ls.Create (putDetails reqPath)).2) := by
        show ls.Create (putDetails reqPath) = _
        rw [← h1]
      rw [hc]
      show _ = (_, deferUnlock (ls.Create (putDetails reqPath)).2
        (ls.Create (putDetails reqPath)).1.1)
      rw [h1]
      cases openFile <;> cases copy <;> rfl
    rw [hput]
    refine ⟨h2, ?_, ?_, ?_⟩
    · simp only [LockSystem.tokens, h2]
      exact hfresh
    · intro _
      constructor
      · cases openFile <;> cases copy <;>
          simp [putStatus, httpError, ResponseWriter.Write, ResponseWriter.WriteHeader,
            ResponseWriter.Set, ResponseWriter.new]
      · apply create_ok
        rw [h3, h2]
        exact hcan
    · intro hno
      rw [hcan] at hno
      cases hno
  · have hno : ls.canCreate ls.held (putDetails reqPath) = false := by
      simpa using hcan
    have hput : servePut ResponseWriter.new ls reqPath openFile copy =
        (httpError ResponseWriter.new "webdav: locked" 412, ls) := by
      unfold servePut
      have hc : ls.Create { root := reqPath, duration := -1, zeroDepth := true } =
          (([], some "webdav: locked"), ls) := by
        show ls.Create (putDetails reqPath) = _
        simp [LockSystem.Create, hno]
      rw [hc]
    rw [hput]
    refine ⟨rfl, hfresh, ?_, ?_⟩
    · intro h
      rw [hno] at h
      cases h
    · intro _
      exact ⟨by simp [httpError, ResponseWriter.Write, ResponseWriter.WriteHeader,
        ResponseWriter.Set, ResponseWriter.new], rfl⟩

/-- C9 at a PUT of `/a.txt` whose copy fails mid-write, on a lock system
without locks: status 405, no lock is left held, and the lock on `/a.txt` can
be created again. -/
theorem servePut_releases_lock_witness :
    (servePut ResponseWriter.new exampleLocks "/a.txt".toList none
        (some "unexpected EOF")).2.held = [] ∧
      (servePut ResponseWriter.new exampleLocks "/a.txt".toList none
        (some "unexpected EOF")).1.status = some 405 ∧
      ((servePut ResponseWriter.new exampleLocks "/a.txt".toList none
        (some "unexpected EOF")).2.Create (putDetails "/a.txt".toList)).1.2 = none :=
  ⟨(servePut_releases_lock exampleLocks "/a.txt".toList none (some "unexpected EOF")
      (by decide)).1,
    ((servePut_releases_lock exampleLocks "/a.txt".toList none (some "unexpected EOF")
      (by decide)).2.2.1 rfl).1,
    ((servePut_releases_lock exampleLocks "/a.txt".toList none (some "unexpected EOF")
      (by decide)).2.2.1 rfl).2⟩

/-! ## The handler cache -/

theorem setPc_pc_self (s : Sys) (t : Bool) (p : Pc) : (s.setPc t p).pc t = p := by
  cases t <;> rfl

theorem setPc_pc_other (s : Sys) (t t2 : Bool) (p : Pc) (h : t2 ≠ t) :
    (s.setPc t p).pc t2 = s.pc t2 := by
  cases t <;> cases t2 <;> first | rfl | exact absurd rfl h

theorem setPc_handlers (s : Sys) (t : Bool) (p : Pc) : (s.setPc t p).handlers = s.handlers := by
  cases t <;> rfl

theorem setPc_nextRef (s : Sys) (t : Bool) (p : Pc) : (s.setPc t p).nextRef = s.nextRef := by
  cases t <;> rfl

theorem not_eq_of_ne (t t2 : Bool) (h : t2 ≠ t) : (!t2) = t := by
  cases t <;> cases t2 <;> first | rfl | exact absurd rfl h

theorem not_ne_self (t : Bool) : (!t) ≠ t := by
  cases t <;> decide

/-- No step removes or replaces an entry of the map. -/
theorem step_handlers_mono (root dir : GoString) (s : Sys) (t : Bool) (k : GoString)
    (h : Handler) (hk : s.handlers k = some h) : (loadHandlerStep root dir s t).handlers k = some h := by
  unfold loadHandlerStep
  split
  · split <;> simpa [setPc_handlers] using hk
  · simpa [setPc_handlers] using hk
  · split
    · simpa [setPc_handlers] using hk
    · rename_i hnone
      rw [setPc_handlers]
      by_cases hkd : k = dir
      · rw [hkd, hnone] at hk
        cases hk
      · simpa [hkd] using hk
  · exact hk

/-- A step that keeps the map, does not lower the next allocation and leaves
the call with the handler it had built keeps the invariant, when the point the
call reaches agrees with the map. -/
theorem inv_setPc (m0 : GoString → Option Handler) (n0 : Nat) (dir : GoString) (s : Sys)
    (t : Bool) (p : Pc) (hinv : Inv m0 n0 dir s) (hown : p.own = (s.pc t).own)
    (hbuilt : ∀ b, p = .built b → s.handlers dir ≠ some b)
    (hdone : ∀ r o, p = .done r o → s.handlers dir = some r) :
    Inv m0 n0 dir (s.setPc t p) := by
  have hownAll : ∀ t2, ((s.setPc t p).pc t2).own = (s.pc t2).own := by
    intro t2
    by_cases h : t2 = t
    · rw [h, setPc_pc_self, hown]
    · rw [setPc_pc_other s t t2 p h]
  refine ⟨?_, ?_, ?_, ?_, ?_, ?_, ?_⟩
  · intro k hk
    rw [setPc_handlers]
    exact hinv.others k hk
  · intro h hh
    rw [setPc_handlers] at hh
    obtain ⟨t2, ht2⟩ := hinv.stored h hh
    exact ⟨t2, by rw [hownAll, ht2]⟩
  · intro t2 b hb
    rw [hownAll] at hb
    rw [setPc_nextRef]
    exact hinv.fresh t2 b hb
  · intro t2 b b2 hb hb2
    rw [hownAll] at hb hb2
    exact hinv.distinct t2 b b2 hb hb2
  · intro t2 b hb
    rw [setPc_handlers]
    by_cases h : t2 = t
    · rw [h, setPc_pc_self] at hb
      exact hbuilt b hb
    · rw [setPc_pc_other s t t2 p h] at hb
      exact hinv.pending t2 b hb
  · intro t2 r o hr
    rw [setPc_handlers]
    by_cases h : t2 = t
    · rw [h, setPc_pc_self] at hr
      exact hdone r o hr
    · rw [setPc_pc_other s t t2 p h] at hr
      exact hinv.returned t2 r o hr
  · rw [setPc_nextRef]
    exact hinv.next

/-- The construction of a handler keeps the invariant. -/
theorem inv_build (m0 : GoString → Option Handler) (n0 : Nat) (dir rt d : GoString) (s : Sys)
    (t : Bool) (hinv : Inv m0 n0 dir s) (hpc : s.pc t = .miss) :
    Inv m0 n0 dir
      (({ s with nextRef := s.nextRef + 1 } : Sys).setPc t
        (.built { ref := s.nextRef, root := rt, dir := d })) := by
  have hother : ∀ t2, t2 ≠ t →
      ((({ s with nextRef := s.nextRef + 1 } : Sys).setPc t
        (.built { ref := s.nextRef, root := rt, dir := d })).pc t2) = s.pc t2 := by
    intro t2 h
    rw [setPc_pc_other _ t t2 _ h]
    cases t2 <;> rfl
  have hself : ((({ s with nextRef := s.nextRef + 1 } : Sys).setPc t
        (.built { ref := s.nextRef, root := rt, dir := d })).pc t) = .built { ref := s.nextRef, root := rt, dir := d } :=
    setPc_pc_self _ t _
  have hnot : s.handlers dir ≠ some { ref := s.nextRef, root := rt, dir := d } := by
    intro hh
    obtain ⟨t2, ht2⟩ := hinv.stored _ hh
    have := (hinv.fresh t2 _ ht2).2
    simp at this
  refine ⟨?_, ?_, ?_, ?_, ?_, ?_, ?_⟩
  · intro k hk
    rw [setPc_handlers]
    exact hinv.others k hk
  · intro h hh
    rw [setPc_handlers] at hh
    obtain ⟨t2, ht2⟩ := hinv.stored h hh
    have hne : t2 ≠ t := by
      intro e
      rw [e, hpc] at ht2
      cases ht2
    exact ⟨t2, by rw [hother t2 hne, ht2]⟩
  · intro t2 b hb
    rw [setPc_nextRef]
    by_cases h : t2 = t
    · rw [h, hself] at hb
      cases hb
      exact ⟨hinv.next, Nat.lt_succ_self _⟩
    · rw [hother t2 h] at hb
      have := hinv.fresh t2 b hb
      exact ⟨this.1, Nat.lt_succ_of_lt this.2⟩
  · intro t2 b b2 hb hb2
    by_cases h : t2 = t
    · rw [h, hself] at hb
      rw [h, hother (!t) (not_ne_self t)] at hb2
      cases hb
      have := (hinv.fresh (!t) b2 hb2).2
      simp only
      omega
    · rw [hother t2 h] at hb
      rw [not_eq_of_ne t t2 h, hself] at hb2
      cases hb2
      have := (hinv.fresh t2 b hb).2
      simp only
      omega
  · intro t2 b hb
    rw [setPc_handlers]
    by_cases h : t2 = t
    · rw [h, hself] at hb
      cases hb
      exact hnot
    · rw [hother t2 h] at hb
      exact hinv.pending t2 b hb
  · intro t2 r o hr
    rw [setPc_handlers]
    by_cases h : t2 = t
    · rw [h, hself] at hr
      cases hr
    · rw [hother t2 h] at hr
      exact hinv.returned t2 r o hr
  · rw [setPc_nextRef]
    exact Nat.le_succ_of_le hinv.next

/-- A `LoadOrStore` that stores keeps the invariant. -/
theorem inv_store (m0 : GoString → Option Handler) (n0 : Nat) (dir : GoString) (s : Sys)
    (t : Bool) (b : Handler) (hinv : Inv m0 n0 dir s) (hpc : s.pc t = .built b)
    (hnone : s.handlers dir = none) :
    Inv m0 n0 dir
      (({ s with handlers := fun k => if k = dir then some b else s.handlers k } : Sys).setPc t
        (.done b (some b))) := by
  have hother : ∀ t2, t2 ≠ t →
      ((({ s with handlers := fun k => if k = dir then some b else s.handlers k } : Sys).setPc t
        (.done b (some b))).pc t2) = s.pc t2 := by
    intro t2 h
    rw [setPc_pc_other _ t t2 _ h]
    cases t2 <;> rfl
  have hself : ((({ s with handlers := fun k => if k = dir then some b else s.handlers k } :
      Sys).setPc t (.done b (some b))).pc t) = .done b (some b) := setPc_pc_self _ t _
  have hownAll : ∀ t2,
      ((({ s with handlers := fun k => if k = dir then some b else s.handlers k } : Sys).setPc t
        (.done b (some b))).pc t2).own = (s.pc t2).own := by
    intro t2
    by_cases h : t2 = t
    · rw [h, hself, hpc]
      rfl
    · rw [hother t2 h]
  have hown : (s.pc t).own = some b := by rw [hpc]; rfl
  refine ⟨?_, ?_, ?_, ?_, ?_, ?_, ?_⟩
  · intro k hk
    rw [setPc_handlers]
    simp only [hk, if_false]
    exact hinv.others k hk
  · intro h hh
    rw [setPc_handlers] at hh
    simp only [if_true] at hh
    cases hh
    exact ⟨t, by rw [hownAll, hown]⟩
  · intro t2 b2 hb
    rw [hownAll] at hb
    rw [setPc_nextRef]
    exact hinv.fresh t2 b2 hb
  · intro t2 b1 b2 hb hb2
    rw [hownAll] at hb hb2
    exact hinv.distinct t2 b1 b2 hb hb2
  · intro t2 b2 hb
    rw [setPc_handlers]
    simp only [if_true]
    by_cases h : t2 = t
    · rw [h, hself] at hb
      cases hb
    · rw [hother t2 h] at hb
      have hown2 : (s.pc t2).own = some b2 := by rw [hb]; rfl
      have hd := hinv.distinct t2 b2 b hown2 (by rw [not_eq_of_ne t t2 h]; exact hown)
      intro e
      cases e
      exact hd rfl
  · intro t2 r o hr
    rw [setPc_handlers]
    simp only [if_true]
    by_cases h : t2 = t
    · rw [h, hself] at hr
      cases hr
      rfl
    · rw [hother t2 h] at hr
      have := hinv.returned t2 r o hr
      rw [hnone] at this
      cases this
  · rw [setPc_nextRef]
    exact hinv.next

/-- Every step keeps the invariant. -/
theorem inv_step (m0 : GoString → Option Handler) (n0 : Nat) (root dir : GoString) (s : Sys)
    (t : Bool) (hinv : Inv m0 n0 dir s) : Inv m0 n0 dir (loadHandlerStep root dir s t) := by
  unfold loadHandlerStep
  split
  · rename_i hpc
    split
    · rename_i v hv
      exact inv_setPc m0 n0 dir s t _ hinv (by rw [hpc]; rfl) (fun b hb => by cases hb)
        (fun r o hr => by cases hr; exact hv)
    · exact inv_setPc m0 n0 dir s t _ hinv (by rw [hpc]; rfl) (fun b hb => by cases hb)
        (fun r o hr => by cases hr)
  · rename_i hpc
    exact inv_build m0 n0 dir _ _ s t hinv hpc
  · rename_i b hpc
    split
    · rename_i v hv
      exact inv_setPc m0 n0 dir s t _ hinv (by rw [hpc]; rfl) (fun b hb => by cases hb)
        (fun r o hr => by cases hr; exact hv)
    · rename_i hnone
      exact inv_store m0 n0 dir s t b hinv hpc hnone
  · exact hinv

theorem inv_init (m0 : GoString → Option Handler) (n0 : Nat) (dir : GoString)
    (hm0 : m0 dir = none) : Inv m0 n0 dir (initSys m0 n0) := by
  refine ⟨fun _ _ => rfl, ?_, ?_, ?_, ?_, ?_, Nat.le_refl _⟩
  · intro h hh
    rw [show (initSys m0 n0).handlers dir = m0 dir from rfl, hm0] at hh
    cases hh
  · intro t b hb
    cases t <;> cases hb
  · intro t b b2 hb
    cases t <;> cases hb
  · intro t b hb
    cases t <;> cases hb
  · intro t r o hr
    cases t <;> cases hr

theorem inv_run (m0 : GoString → Option Handler) (n0 : Nat) (root dir : GoString)
    (sched : List Bool) (s : Sys) (hinv : Inv m0 n0 dir s) :
    Inv m0 n0 dir (run root dir sched s) := by
  induction sched generalizing s with
  | nil => exact hinv
  | cons t rest ih => exact ih _ (inv_step m0 n0 root dir s t hinv)

/-- A step of a call brings it closer to its return and leaves the other call
where it is. -/
theorem step_rank (root dir : GoString) (s : Sys) (t : Bool) :
    ((loadHandlerStep root dir s t).pc t).rank ≤ (s.pc t).rank - 1 ∧
      (loadHandlerStep root dir s t).pc (!t) = s.pc (!t) := by
  unfold loadHandlerStep
  split
  · rename_i hpc
    split <;> simp [setPc_pc_self, setPc_pc_other _ t (!t) _ (not_ne_self t), hpc, Pc.rank]
  · rename_i hpc
    rw [setPc_pc_self, setPc_pc_other _ t (!t) _ (not_ne_self t)]
    refine ⟨by simp [hpc, Pc.rank], ?_⟩
    cases t <;> rfl
  · rename_i b hpc
    split
    · simp [setPc_pc_self, setPc_pc_other _ t (!t) _ (not_ne_self t), hpc, Pc.rank]
    · rw [setPc_pc_self, setPc_pc_other _ t (!t) _ (not_ne_self t)]
      refine ⟨by simp [Pc.rank], ?_⟩
      cases t <;> rfl
  · rename_i hpc
    simp [hpc, Pc.rank]

/-- Every call that is scheduled often enough returns. -/
theorem run_rank (root dir : GoString) (sched : List Bool) (s : Sys) (t : Bool) :
    ((run root dir sched s).pc t).rank ≤ (s.pc t).rank - sched.count t := by
  induction sched generalizing s with
  | nil => simp [run]
  | cons t2 rest ih =>
    have hstep := step_rank root dir s t2
    have hrest := ih (loadHandlerStep root dir s t2)
    simp only [run]
    by_cases h : t2 = t
    · subst h
      rw [List.count_cons_self]
      omega
    · have hne : t ≠ t2 := fun e => h e.symm
      have : (!t2) = t := by
        cases t <;> cases t2 <;> first | rfl | exact absurd rfl h
      have hcount : List.count t (t2 :: rest) = List.count t rest := by
        simp [List.count_cons, h]
      have hpc : (loadHandlerStep root dir s t2).pc t = s.pc t := by
        rw [← this]
        exact hstep.2
      rw [hcount, ← hpc]
      exact hrest

theorem rank_zero (p : Pc) (h : p.rank = 0) : ∃ r o, p = .done r o := by
  cases p with
  | start => cases h
  | miss => cases h
  | built b => cases h
  | done r o => exact ⟨r, o, rfl⟩

/-- C10: `loadHandler` is a get-or-create with one instance per key. Take two
calls of `loadHandler(dir)` whose `Load`, construction and `LoadOrStore` steps
interleave in any order `sched`, on a map `m0` without an entry for `dir`
(whose handlers were allocated before `n0`). In the state after the schedule:
a call that has returned returns the handler stored under `dir`, so two calls
that have returned return the same instance; a handler that a call built and
did not return is in no entry of the map; the entries of the other keys are
those of `m0`; no step removes or replaces an entry; and when each call has
been scheduled three times both have returned, with the same instance. -/
theorem loadHandler_one_instance (root dir : GoString) (m0 : GoString → Option Handler)
    (n0 : Nat) (sched : List Bool) (hm0 : m0 dir = none)
    (hold : ∀ k h, m0 k = some h → h.ref < n0) :
    (∀ t r o, (run root dir sched (initSys m0 n0)).pc t = .done r o →
      (run root dir sched (initSys m0 n0)).handlers dir = some r) ∧
    (∀ r0 o0 r1 o1, (run root dir sched (initSys m0 n0)).pc false = .done r0 o0 →
      (run root dir sched (initSys m0 n0)).pc true = .done r1 o1 → r0 = r1) ∧
    (∀ t r b, (run root dir sched (initSys m0 n0)).pc t = .done r (some b) → b ≠ r →
      ∀ k, (run root dir sched (initSys m0 n0)).handlers k ≠ some b) ∧
    (∀ k, k ≠ dir → (run root dir sched (initSys m0 n0)).handlers k = m0 k) ∧
    (∀ t k h, (run root dir sched (initSys m0 n0)).handlers k = some h →
      (loadHandlerStep root dir (run root dir sched (initSys m0 n0)) t).handlers k = some h) ∧
    (3 ≤ sched.count false → 3 ≤ sched.count true →
      ∃ r o0 o1, (run root dir sched (initSys m0 n0)).pc false = .done r o0 ∧
        (run root dir sched (initSys m0 n0)).pc true = .done r o1) := by
  have hinv := inv_run m0 n0 root dir sched (initSys m0 n0) (inv_init m0 n0 dir hm0)
  have hsame : ∀ r0 o0 r1 o1, (run root dir sched (initSys m0 n0)).pc false = .done r0 o0 →
      (run root dir sched (initSys m0 n0)).pc true = .done r1 o1 → r0 = r1 := by
    intro r0 o0 r1 o1 h0 h1
    have e0 := hinv.returned false r0 o0 h0
    have e1 := hinv.returned true r1 o1 h1
    rw [e0] at e1
    cases e1
    rfl
  refine ⟨hinv.returned, hsame, ?_, hinv.others, ?_, ?_⟩
  · intro t r b hpc hne k hk
    by_cases hkd : k = dir
    · rw [hkd, hinv.returned t r _ hpc] at hk
      cases hk
      exact hne rfl
    · rw [hinv.others k hkd] at hk
      have h1 := hold k b hk
      have h2 := (hinv.fresh t b (by rw [hpc]; rfl)).1
      omega
  · intro t k h hk
    exact step_handlers_mono root dir _ t k h hk
  · intro h0 h1
    have r0 := run_rank root dir sched (initSys m0 n0) false
    have r1 := run_rank root dir sched (initSys m0 n0) true
    have i0 : ((initSys m0 n0).pc false).rank = 3 := rfl
    have i1 : ((initSys m0 n0).pc true).rank = 3 := rfl
    obtain ⟨a, o0, ha⟩ := rank_zero _ (by omega :
      ((run root dir sched (initSys m0 n0)).pc false).rank = 0)
    obtain ⟨b, o1, hb⟩ := rank_zero _ (by omega :
      ((run root dir sched (initSys m0 n0)).pc true).rank = 0)
    have := hsame a o0 b o1 ha hb
    subst this
    exact ⟨a, o0, o1, ha, hb⟩

/-- C10 at two first calls for `alice` on an empty map, where both calls miss
and build a handler and the second call stores first: both return the
handler of the second call, and the handler of the first call is dropped. -/
theorem loadHandler_one_instance_witness :
    (∃ r o0 o1,
      (run "/srv".toList "alice".toList [false, true, false, true, true, false]
        (initSys (fun _ => none) 0)).pc false = .done r o0 ∧
      (run "/srv".toList "alice".toList [false, true, false, true, true, false]
        (initSys (fun _ => none) 0)).pc true = .done r o1) ∧
    (run "/srv".toList "alice".toList [false, true, false, true, true, false]
        (initSys (fun _ => none) 0)).pc false =
      .done { ref := 1, root := "/srv".toList, dir := "alice".toList }
        (some { ref := 0, root := "/srv".toList, dir := "alice".toList }) :=
  ⟨(loadHandler_one_instance "/srv".toList "alice".toList (fun _ => none) 0
      [false, true, false, true, true, false] rfl (fun _ _ h => by cases h)).2.2.2.2.2
      (by decide) (by decide),
    by decide⟩

end SimpleWebdav
